import Mathlib

/-!
Verification of the smart-card library (ISO/IEC 7816-4 + EMV layers).

Shallow embedding of the Go sources:
  - pkg/bits/bits.go           : 1-indexed bit-field utilities
  - pkg/iso7816/class.go       : class byte (CLA) decode/encode
  - pkg/iso7816/instruction.go : instruction byte (INS)
  - pkg/iso7816/apdu.go        : command/response APDU codec
  - status word file           : status word taxonomy
  - pkg/iso7816/client.go      : protocol automaton (61xx / 6Cxx handling)
  - pkg/tlv/parser.go          : both generations of the tag-directed mapping engine
  - pkg/iso7816/fci.go         : SELECT response resolution (FCI/FCP/FMD)

Bytes are modelled as `Nat` with explicit masking where the Go code relies on
fixed-width arithmetic.  Fallible Go functions returning `(T, error)` become
`Except String T` (or an explicit error inductive where the error identity
matters), and functions returning both a partial value and an error become
pairs.
-/

namespace SmartCard

deriving instance DecidableEq for Except

/-! ## pkg/bits/bits.go -/

namespace bits

/-- Go `bits.Bit`: byte with only the n-th bit set (1 to 8); 0 for out-of-range n. -/
def Bit (n : Nat) : Nat :=
  if n < 1 ∨ n > 8 then 0 else 1 <<< (n - 1)

/-- Go `bits.IsSet`: checks if the n-th bit is set (1 to 8). -/
def IsSet (b n : Nat) : Bool :=
  b &&& Bit n != 0

/-- Go `bits.GetRange`: extracts the value held in bits [low..high] inclusive;
0 if high < low, high > 8 or low < 1. -/
def GetRange (b high low : Nat) : Nat :=
  if high < low ∨ high > 8 ∨ low < 1 then 0
  else (b >>> (low - 1)) &&& ((1 <<< (high - low + 1)) - 1)

/-- Go `bits.Set`: sets the n-th bit (renamed to avoid clashing with `Set`). -/
def SetBit (b n : Nat) : Nat :=
  b ||| Bit n

end bits

/-! ## pkg/iso7816/class.go -/

/-- Go `SecureMessaging` is an `int`; we keep the numeric representation. -/
abbrev SecureMessaging := Nat

def SMNone : SecureMessaging := 0

def SMProprietary : SecureMessaging := 1

def SMHeaderNoProc : SecureMessaging := 2

def SMHeaderAuth : SecureMessaging := 3

/-- Go `Class`: the parsed ISO 7816-4 class byte (CLA). -/
structure Class where
  raw : Nat
  isProprietary : Bool
  isChained : Bool
  secureMessaging : SecureMessaging
  channel : Nat
deriving DecidableEq, Repr

/-- Go `NewClass`: decode a raw CLA byte.  A `Class{Raw: cla}` literal leaves the
other fields at their zero values, which we spell explicitly. -/
def NewClass (cla : Nat) : Except String Class :=
  if cla = 0xFF then
    .error "invalid CLA value: 0xFF is reserved"
  else if bits.IsSet cla 8 then
    .ok { raw := cla, isProprietary := true, isChained := false,
          secureMessaging := SMNone, channel := 0 }
  else
    let chained := bits.IsSet cla 5
    if ¬ bits.IsSet cla 7 then
      -- First Interindustry Structure (00xx xxxx)
      .ok { raw := cla, isProprietary := false, isChained := chained,
            secureMessaging := bits.GetRange cla 4 3,
            channel := bits.GetRange cla 2 1 }
    else
      -- Further Interindustry Structure (01xx xxxx)
      .ok { raw := cla, isProprietary := false, isChained := chained,
            secureMessaging := if bits.IsSet cla 6 then SMHeaderNoProc else SMNone,
            channel := bits.GetRange cla 4 1 + 4 }

/-- Go `(*Class).Encode`: converts a `Class` back to its byte representation.
The Go function returns `(byte, error)` but every path returns a nil error, so
the embedding is total. -/
def Class.encode (c : Class) : Nat :=
  if c.isProprietary then
    c.raw
  else if c.channel ≤ 3 then
    -- First Interindustry Encoding
    let res := if c.isChained then bits.SetBit 0 5 else 0
    (res ||| (c.secureMessaging <<< 2)) ||| c.channel
  else
    -- Further Interindustry Encoding
    let res := bits.SetBit 0 7
    let res := if c.isChained then bits.SetBit res 5 else res
    let res := if c.secureMessaging ≠ SMNone then bits.SetBit res 6 else res
    res ||| (c.channel - 4)

/-! ## pkg/iso7816/instruction.go -/

/-- Go `Instruction`: raw INS byte plus the BER-TLV preference flag (bit 1). -/
structure Instruction where
  raw : Nat
  isBERTLV : Bool
deriving DecidableEq, Repr

/-- Go `NewInstruction`: rejects INS values whose high nibble is 0x6 or 0x9. -/
def NewInstruction (ins : Nat) : Except String Instruction :=
  let highNibble := ins &&& 0xF0
  if highNibble = 0x60 ∨ highNibble = 0x90 then
    .error "invalid INS: 6X and 9X are reserved"
  else
    .ok { raw := ins, isBERTLV := bits.IsSet ins 1 }

def INS_GET_RESPONSE : Nat := 0xC0

/-- Go client.go line 71: `ins, _ := NewInstruction(INS_GET_RESPONSE)` — the
error is discarded (and cannot occur for 0xC0, whose high nibble is 0xC). -/
def insGetResponse : Instruction :=
  match NewInstruction INS_GET_RESPONSE with
  | .ok i => i
  | .error _ => { raw := 0, isBERTLV := false }

/-! ## Status word (status word source file, pkg iso7816) -/

/-- Go `StatusWord` is a `uint16`; modelled as `Nat` (< 65536 in practice). -/
abbrev StatusWord := Nat

/-- Go `NewStatusWord(sw1, sw2 byte)`: `uint16(sw1)<<8 | uint16(sw2)`.  The
`% 256` mirrors the `byte` parameter type. -/
def NewStatusWord (sw1 sw2 : Nat) : StatusWord :=
  ((sw1 % 256) <<< 8) ||| (sw2 % 256)

/-- Go `(StatusWord).SW1()`: high byte. -/
def SW1 (sw : StatusWord) : Nat := (sw >>> 8) % 256

/-- Go `(StatusWord).SW2()`: low byte. -/
def SW2 (sw : StatusWord) : Nat := sw % 256

def SW_NO_ERROR : StatusWord := 0x9000

/-- Go `(StatusWord).IsSuccess()`: `sw == SW_NO_ERROR || sw.SW1() == 0x61`. -/
def IsSuccess (sw : StatusWord) : Bool :=
  sw == SW_NO_ERROR || SW1 sw == 0x61

/-- Go `(StatusWord).IsWarning()`: SW1 is 0x62 or 0x63. -/
def IsWarning (sw : StatusWord) : Bool :=
  SW1 sw == 0x62 || SW1 sw == 0x63

/-- Go `(StatusWord).IsError()`: SW1 in [0x64, 0x6F]. -/
def IsError (sw : StatusWord) : Bool :=
  decide (0x64 ≤ SW1 sw) && decide (SW1 sw ≤ 0x6F)

/-! ## pkg/iso7816/apdu.go -/

def MaxShortLc : Nat := 255

def MaxShortLe : Nat := 256

def MaxExtendedLc : Nat := 65535

def MaxExtendedLe : Nat := 65536

/-- Go `CommandAPDU`.  `Ne` is a Go `int`; only non-negative values occur. -/
structure CommandAPDU where
  cls : Class
  instruction : Instruction
  p1 : Nat
  p2 : Nat
  data : List Nat
  ne : Nat
deriving DecidableEq, Repr

/-- Go `(*CommandAPDU).Bytes()`: encodes the command APDU.  `Class.Encode`
never fails, so neither does this function.  `% 256` mirrors `byte(...)`
conversions. -/
def CommandAPDU.bytes (c : CommandAPDU) : List Nat :=
  let header := [c.cls.encode, c.instruction.raw % 256, c.p1 % 256, c.p2 % 256]
  let nc := c.data.length
  let ne := c.ne
  -- Determine encoding mode
  let isExtended := nc > MaxShortLc ∨ ne > MaxShortLe
  -- 2. Encode Lc Field & Data Field
  let lcAndData :=
    if nc > 0 then
      (if isExtended then [0x00, (nc >>> 8) % 256, nc % 256] else [nc % 256]) ++ c.data
    else []
  -- 3. Encode Le Field
  let leField :=
    if ne > 0 then
      if isExtended then
        (if nc = 0 then [0x00] else []) ++
          (if ne = MaxExtendedLe then [0x00, 0x00] else [(ne >>> 8) % 256, ne % 256])
      else
        if ne = MaxShortLe then [0x00] else [ne % 256]
    else []
  header ++ lcAndData ++ leField

/-- Go `ResponseAPDU`. -/
structure ResponseAPDU where
  data : List Nat
  status : StatusWord
deriving DecidableEq, Repr

/-- Go `ParseResponseAPDU`: needs at least the two trailer bytes; data is
everything before them. -/
def ParseResponseAPDU (raw : List Nat) : Except String ResponseAPDU :=
  if raw.length < 2 then
    .error "response too short"
  else
    let indexSW1 := raw.length - 2
    .ok { data := raw.take indexSW1,
          status := NewStatusWord (raw.getD indexSW1 0) (raw.getD (indexSW1 + 1) 0) }

/-- Go `Transaction`: a command plus an optional response. -/
structure Transaction where
  command : CommandAPDU
  response : Option ResponseAPDU
deriving DecidableEq, Repr

/-- Go `Trace`: ordered sequence of transactions. -/
abbrev Trace := List Transaction

/-! ## pkg/iso7816/client.go -/

/-- Errors a `Send` invocation can report. -/
inductive SendErr where
  /-- wraps an error from the transport collaborator (`transmission error: ...`) -/
  | transmission (msg : String)
  /-- a `ParseResponseAPDU` failure, returned unwrapped -/
  | parse (msg : String)
  /-- modelling artifact: the finite response script ran out (the Go transport
  is an endless collaborator; a finite script bounds the recursion) -/
  | exhausted
deriving DecidableEq, Repr

/-- The transport collaborator is modelled as a finite script of pre-recorded
answers (each either a raw response or a transport error), consumed in order —
exactly how the repository's tests script their mock transmitters. -/
abbrev Script := List (Except String (List Nat))

/-- Go `(*Client).Send`: transmit, parse, then resolve 61xx (GET RESPONSE) and
6Cxx (retry with corrected Ne) recursively.  Returns the Go pair
`(Trace, error)` plus the unconsumed part of the script.  Note the Go code
returns only the current level's `trace` (not `subTrace`) when a recursive
call fails. -/
def clientSend : Script → CommandAPDU → Trace × Option SendErr × Script
  | [], _ => ([], some .exhausted, [])
  | r :: rest, cmd =>
    match r with
    | .error e => ([], some (.transmission e), rest)
    | .ok rawResp =>
      match ParseResponseAPDU rawResp with
      | .error e => ([], some (.parse e), rest)
      | .ok resp =>
        let currentTx : Transaction := { command := cmd, response := some resp }
        let trace : Trace := [currentTx]
        if SW1 resp.status = 0x61 then
          -- Case 61XX: More data available -> Issue GET RESPONSE
          let respCls := { cmd.cls with isChained := false }
          let getRespCmd : CommandAPDU :=
            { cls := respCls, instruction := insGetResponse, p1 := 0x00, p2 := 0x00,
              data := [], ne := SW2 resp.status }
          match clientSend rest getRespCmd with
          | (_, some e, rest2) => (trace, some e, rest2)
          | (subTrace, none, rest2) => (trace ++ subTrace, none, rest2)
        else if SW1 resp.status = 0x6C then
          -- Case 6CXX: Wrong Length -> Re-issue original command with correct Le
          let newCmd := { cmd with ne := SW2 resp.status }
          match clientSend rest newCmd with
          | (_, some e, rest2) => (trace, some e, rest2)
          | (subTrace, none, rest2) => (trace ++ subTrace, none, rest2)
        else (trace, none, rest)

/-- The GET RESPONSE command `Send` builds for a 61xx status: same class with
the chaining bit cleared (hence the same logical channel), P1 = P2 = 0, no
data, Ne = SW2. -/
def getResponseCmdFor (cmd : CommandAPDU) (resp : ResponseAPDU) : CommandAPDU :=
  { cls := { cmd.cls with isChained := false }, instruction := insGetResponse,
    p1 := 0x00, p2 := 0x00, data := [], ne := SW2 resp.status }

/-- Example fixture: class byte 0x00 (first interindustry, channel 0). -/
def exClass : Class :=
  { raw := 0x00, isProprietary := false, isChained := false,
    secureMessaging := SMNone, channel := 0 }

/-- Example fixture: a SELECT-by-AID style command. -/
def exCmd : CommandAPDU :=
  { cls := exClass, instruction := { raw := 0xA4, isBERTLV := false },
    p1 := 0x04, p2 := 0x00, data := [0x3F, 0x00], ne := 0 }

/-! ## C4: error propagation and trace visibility -/

/-- The GET RESPONSE command generated in the C4 scenario (Ne = 1). -/
def exCmdGR1 : CommandAPDU :=
  { cls := exClass, instruction := insGetResponse, p1 := 0x00, p2 := 0x00,
    data := [], ne := 1 }

/-! ## BER-TLV trees (external collaborator moov-io/bertlv) -/

/-- moov-io/bertlv `TLV`: a tag (case-insensitive hex string), raw value
bytes, and the child nodes when the value is composite. -/
inductive TLV : Type where
  | mk (tag : String) (value : List Nat) (children : List TLV)

def TLV.tag : TLV → String
  | .mk t _ _ => t

def TLV.value : TLV → List Nat
  | .mk _ v _ => v

def TLV.children : TLV → List TLV
  | .mk _ _ c => c

/-- Uppercase an ASCII character (hex tags are ASCII). -/
def upperChar (c : Char) : Char :=
  if 97 ≤ c.toNat ∧ c.toNat ≤ 122 then Char.ofNat (c.toNat - 32) else c

/-- Go `strings.ToUpper`, restricted to the ASCII hex tags used here.  Also
used to model `strings.EqualFold a b` as `upperStr a = upperStr b`. -/
def upperStr (s : String) : String :=
  String.mk (s.data.map upperChar)

/-- Uppercase hex digit for a nibble. -/
def hexDigitUpper (n : Nat) : Char :=
  if n < 10 then Char.ofNat (48 + n) else Char.ofNat (55 + n)

/-- Lowercase hex digit for a nibble. -/
def hexDigitLower (n : Nat) : Char :=
  if n < 10 then Char.ofNat (48 + n) else Char.ofNat (87 + n)

/-- One byte as two uppercase hex characters (tag rendering). -/
def byteToHexUpper (b : Nat) : String :=
  String.mk [hexDigitUpper ((b / 16) % 16), hexDigitUpper (b % 16)]

/-- Go `hex.EncodeToString`: lowercase hex string of a byte slice. -/
def bytesToHexLower (bs : List Nat) : String :=
  String.mk ((bs.map fun b => [hexDigitLower ((b / 16) % 16), hexDigitLower (b % 16)]).flatten)

/-- Numeric value of one hex character (either case). -/
def hexCharVal (c : Char) : Except String Nat :=
  if 48 ≤ c.toNat ∧ c.toNat ≤ 57 then .ok (c.toNat - 48)
  else if 65 ≤ c.toNat ∧ c.toNat ≤ 70 then .ok (c.toNat - 55)
  else if 97 ≤ c.toNat ∧ c.toNat ≤ 102 then .ok (c.toNat - 87)
  else .error "invalid hex digit"

/-- Hex character pairs to bytes (used to rebuild tag bytes from tag strings). -/
def hexCharsToBytes : List Char → Except String (List Nat)
  | [] => .ok []
  | [_] => .error "odd hex length"
  | c1 :: c2 :: rest => do
    let hi ← hexCharVal c1
    let lo ← hexCharVal c2
    let bs ← hexCharsToBytes rest
    .ok ((hi * 16 + lo) :: bs)

/-- Modelled from the spec: the BER-TLV primitive codec is an external
collaborator (§6, moov-io/bertlv), not part of this repository.  Tag tail
bytes of a multi-byte tag carry the continuation bit 0x80. -/
def takeTagTail : List Nat → Except String (List Nat × List Nat)
  | [] => .error "truncated tag"
  | b :: rest =>
    if b &&& 0x80 = 0x80 then do
      let (t, r) ← takeTagTail rest
      .ok (b :: t, r)
    else .ok ([b], rest)

/-- Modelled from the spec: BER length field, short form plus the long forms
0x81/0x82 (lengths above 65535 do not occur in this domain). -/
def decodeLenField : List Nat → Except String (Nat × List Nat)
  | [] => .error "truncated length"
  | b :: rest =>
    if b < 0x80 then .ok (b, rest)
    else if b = 0x81 then
      match rest with
      | l1 :: r => .ok (l1, r)
      | [] => .error "truncated long length"
    else if b = 0x82 then
      match rest with
      | l1 :: l2 :: r => .ok (l1 * 256 + l2, r)
      | _ => .error "truncated long length"
    else .error "unsupported length form"

/-- Modelled from the spec: the external BER-TLV primitive decoder turns a
byte stream into a tree of (tag, raw value, children); a constructed tag
(bit 0x20 of the first tag byte) is recursively decoded into children with an
empty raw value.  The fuel argument only bounds the recursion; it is
instantiated with more than the input length, which always suffices since
every step consumes at least one byte. -/
def bertlvDecodeFuel : Nat → List Nat → Except String (List TLV)
  | _, [] => .ok []
  | 0, _ :: _ => .error "out of fuel"
  | Nat.succ fuel, b0 :: rest0 => do
    let (tagTail, afterTag) ←
      if b0 &&& 0x1F = 0x1F then takeTagTail rest0 else .ok ([], rest0)
    let tagBytes := b0 :: tagTail
    let (len, afterLen) ← decodeLenField afterTag
    if len ≤ afterLen.length then
      let content := afterLen.take len
      let remaining := afterLen.drop len
      let tagStr := String.join (tagBytes.map byteToHexUpper)
      let node ←
        if b0 &&& 0x20 = 0x20 then do
          let kids ← bertlvDecodeFuel fuel content
          Except.ok (TLV.mk tagStr [] kids)
        else Except.ok (TLV.mk tagStr content [])
      let others ← bertlvDecodeFuel fuel remaining
      .ok (node :: others)
    else .error "value field exceeds input"

/-- Modelled from the spec: moov-io/bertlv `Decode`. -/
def bertlvDecode (bs : List Nat) : Except String (List TLV) :=
  bertlvDecodeFuel (bs.length + 1) bs

/-- Modelled from the spec: BER length field encoder (inverse of
`decodeLenField` for the lengths that occur here). -/
def encodeLenField (n : Nat) : List Nat :=
  if n < 0x80 then [n]
  else if n < 0x100 then [0x81, n]
  else [0x82, (n >>> 8) % 256, n % 256]

mutual

/-- Modelled from the spec: moov-io/bertlv `Encode` on a single node — tag
bytes from the hex tag string, then the length field, then the content
(re-serialised children when present, else the raw value). -/
def bertlvEncodeOne : TLV → Except String (List Nat)
  | .mk tag value children => do
    let tagBytes ← hexCharsToBytes tag.data
    let content ←
      match children with
      | [] => Except.ok value
      | _ :: _ => bertlvEncodeList children
    .ok (tagBytes ++ encodeLenField content.length ++ content)

/-- Modelled from the spec: moov-io/bertlv `Encode` on a node list. -/
def bertlvEncodeList : List TLV → Except String (List Nat)
  | [] => .ok []
  | t :: ts => do
    let b ← bertlvEncodeOne t
    let bs ← bertlvEncodeList ts
    .ok (b ++ bs)

end

/-! ## pkg/tlv/parser.go — the generic tag-directed mapping engine -/

/-- The kind of a schema field, mirroring the reflected Go field types driven
by the `tlv:"..."` struct tags. -/
inductive FieldKind : Type where
  /-- a `[]byte` field -/
  | bytes
  /-- a `string` field (filled with the lowercase hex of the value) -/
  | hexStr
  /-- a nested struct (or pointer to struct) with its own schema; the flag
  records whether that struct declares a catch-all field -/
  | nested (fields : List (String × FieldKind)) (hasUnknown : Bool)
  /-- a slice of nested structs (a repeated, non-byte-slice field) -/
  | nestedList (fields : List (String × FieldKind)) (hasUnknown : Bool)

/-- A schema: the tagged fields in declaration order.  The catch-all field
(`Unknown`, tag ",unknown") is represented by a separate `hasUnknown` flag,
mirroring how both Go engines special-case it. -/
abbrev SchemaFields := List (String × FieldKind)

/-- The value held by a struct field after mapping (`none` = still the Go
zero value, i.e. a nil slice / empty string / zero struct never assigned). -/
inductive FieldVal : Type where
  | bytes (b : List Nat)
  | hexStr (s : String)
  /-- a nested struct value: its own field values and catch-all content -/
  | nested (vals : List (Option FieldVal)) (unknown : List TLV)
  /-- a slice of nested struct values -/
  | listOf (elems : List FieldVal)

/-- Go parser.go (current) `getPacketRawData`: re-serialised children when
present (falling back to the raw value if encoding fails), else the value. -/
def getPacketRawData (p : TLV) : List Nat :=
  match p.children with
  | [] => p.value
  | _ :: _ =>
    match bertlvEncodeList p.children with
    | .ok enc => enc
    | .error _ => p.value

mutual

/-- Go parser.go (current generation) `UnmarshalFromPackets`: scans the packet
list by index for every schema field (supporting repeated slice fields), then
collects the unconsumed packets into the catch-all.  `vals`/`unknown` are the
target struct's current contents (the Go code mutates the target in place,
which matters when the same nested struct is filled twice).  The fuel
argument (decremented on every call, so it bounds only the call depth) makes
the mutual recursion structural; the Go recursion is structural on the
schema, so any fuel beyond the recursion depth is equivalent. -/
def unmarshalFP2 : Nat → List TLV → SchemaFields → Bool →
    List (Option FieldVal) → List TLV →
    Except String (List (Option FieldVal) × List TLV)
  | 0, _, _, _, _, _ => .error "out of fuel"
  | fuel + 1, packets, fields, hasUnknown, vals, unknown => do
    let (vals2, pcs2) ← fieldsPassF2 fuel fields (packets.map fun p => (p, false)) vals
    if hasUnknown then
      let leftovers := (pcs2.filter fun pc => !pc.2).map fun pc => pc.1
      if leftovers.isEmpty then .ok (vals2, unknown) else .ok (vals2, leftovers)
    else .ok (vals2, unknown)

/-- Field loop of the current engine: each schema field in declaration order
is matched against every (packet, consumed-flag) pair in order. -/
def fieldsPassF2 : Nat → SchemaFields → List (TLV × Bool) →
    List (Option FieldVal) →
    Except String (List (Option FieldVal) × List (TLV × Bool))
  | 0, _, _, _ => .error "out of fuel"
  | fuel + 1, fields, pcs, vals =>
    match fields, vals with
    | [], _ => .ok ([], pcs)
    | _ :: _, [] => .ok ([], pcs)
    | (tag, k) :: fs, v :: vs => do
      let (v2, pcs2) ← fieldPassF2 fuel (upperStr tag) k pcs v
      let (vs2, pcs3) ← fieldsPassF2 fuel fs pcs2 vs
      .ok (v2 :: vs2, pcs3)

/-- Packet loop for one field of the current engine (parser.go lines
241-249): every matching packet is mapped and marked consumed. -/
def fieldPassF2 : Nat → String → FieldKind → List (TLV × Bool) →
    Option FieldVal →
    Except String (Option FieldVal × List (TLV × Bool))
  | 0, _, _, _, _ => .error "out of fuel"
  | fuel + 1, tagU, k, pcs, cur =>
    match pcs with
    | [] => .ok (cur, [])
    | (p, c) :: rest =>
      if upperStr p.tag = tagU then do
        let v ← mapPacketToFieldF2 fuel p k cur
        let (v2, rest2) ← fieldPassF2 fuel tagU k rest (some v)
        .ok (v2, (p, true) :: rest2)
      else do
        let (v2, rest2) ← fieldPassF2 fuel tagU k rest cur
        .ok (v2, (p, c) :: rest2)

/-- Go parser.go (current) `mapPacketToField`: a non-byte slice field grows by
one freshly decoded element per matching packet; other kinds decode in
place. -/
def mapPacketToFieldF2 : Nat → TLV → FieldKind → Option FieldVal →
    Except String FieldVal
  | 0, _, _, _ => .error "out of fuel"
  | fuel + 1, p, k, cur =>
    match k with
    | .nestedList fs hu => do
      let e ← decodeNestedF2 fuel p fs hu none
      match cur with
      | some (.listOf es) => .ok (.listOf (es ++ [e]))
      | _ => .ok (.listOf [e])
    | k2 => decodeToValueF2 fuel p k2 cur

/-- Go parser.go (current) `decodeToValue`: byte slices take the packet raw
data, strings the hex of the value, nested structs recurse (over children, or
over the re-decoded value when the node is a leaf).  A slice kind reaching
this function matches none of the reflection cases and leaves the field
untouched (unreachable through `mapPacketToFieldF2`). -/
def decodeToValueF2 : Nat → TLV → FieldKind → Option FieldVal →
    Except String FieldVal
  | 0, _, _, _ => .error "out of fuel"
  | fuel + 1, p, k, cur =>
    match k with
    | .bytes => .ok (.bytes (getPacketRawData p))
    | .hexStr => .ok (.hexStr (bytesToHexLower p.value))
    | .nested fs hu => decodeNestedF2 fuel p fs hu cur
    | .nestedList _ _ => .ok (cur.getD (.listOf []))

/-- Nested-struct decoding shared by both shapes of nested field: children
when present, otherwise the external decode of the raw value; the struct
keeps (merges into) its current contents, like the Go in-place mutation. -/
def decodeNestedF2 : Nat → TLV → SchemaFields → Bool → Option FieldVal →
    Except String FieldVal
  | 0, _, _, _, _ => .error "out of fuel"
  | fuel + 1, p, fs, hu, cur => do
    let s :=
      match cur with
      | some (.nested vs un) => (vs, un)
      | _ => (List.replicate fs.length none, [])
    if ¬ p.children.isEmpty then do
      let (vs2, un2) ← unmarshalFP2 fuel p.children fs hu s.1 s.2
      .ok (.nested vs2 un2)
    else
      match bertlvDecode p.value with
      | .error e => .error ("bertlv decode failed: " ++ e)
      | .ok pkts => do
        let (vs2, un2) ← unmarshalFP2 fuel pkts fs hu s.1 s.2
        .ok (.nested vs2 un2)

end

/-- Canonical fuel for an engine run.  The fuel bounds only the call depth
(each call passes fuel - 1 to its callees); the Go recursion descends the
schema doing per-level loops over fields and packets, so its depth is far
below 2^64 for any realistically constructible input.  Theorems quantifying
over unbounded inputs carry explicit success or size hypotheses. -/
def engineFuel : Nat := 2 ^ 64

/-- Go parser.go (current generation) `UnmarshalFromPackets` at canonical
fuel. -/
def UnmarshalFromPackets2 (packets : List TLV) (fields : SchemaFields)
    (hasUnknown : Bool) (vals : List (Option FieldVal)) (unknown : List TLV) :
    Except String (List (Option FieldVal) × List TLV) :=
  unmarshalFP2 engineFuel packets fields hasUnknown vals unknown

/-- Replace-or-append insertion modelling the Go map assignment in the older
engine (later packets displace earlier packets with the same uppercased tag).
The resulting association list has pairwise distinct keys; only its
key-to-packet content models the Go map — Go deliberately randomizes map
iteration order, so no theorem may rely on the position of entries in this
list. -/
def insertReplace : List (String × TLV) → String → TLV → List (String × TLV)
  | [], k, p => [(k, p)]
  | (k0, p0) :: rest, k, p =>
    if k0 = k then (k0, p) :: rest else (k0, p0) :: insertReplace rest k p

/-- The CONTENT of the Go map built at parser.go (older generation) lines
41-44: packets keyed by uppercased tag, as an association list with pairwise
distinct keys (listed here in first-insertion order, but the order carries no
meaning).  Because Go randomizes map iteration order, the older engine below
takes the enumeration of this map as an explicit argument, and theorems about
it quantify over all permutations of `tagMapOf packets`. -/
def tagMapOf (packets : List TLV) : List (String × TLV) :=
  packets.foldl (fun m p => insertReplace m (upperStr p.tag) p) []

mutual

/-- Go parser.go (older generation) `UnmarshalFromPackets`: indexes the
packets by a tag-keyed map, maps each schema field from that map, and fills
the catch-all by ranging over the map and skipping consumed tags.  Go
randomizes the order of that range loop, so the engine takes `tagMap` — the
map presented in SOME enumeration order — as an argument: a run of the Go
engine on `packets` corresponds to `unmarshalFP1 fuel iter ...` for some
`iter` that is a permutation of `tagMapOf packets`.  Lookups depend only on
the map content (keys are pairwise distinct), while the order of the
catch-all leftovers follows the given enumeration.  The nested recursive
calls (never reached on flat schemas, which are the only ones the theorems
below quantify over) enumerate their sub-maps in first-insertion order.
Fuel as in the current engine. -/
def unmarshalFP1 : Nat → List (String × TLV) → SchemaFields → Bool →
    List (Option FieldVal) → List TLV →
    Except String (List (Option FieldVal) × List TLV)
  | 0, _, _, _, _, _ => .error "out of fuel"
  | fuel + 1, tagMap, fields, hasUnknown, vals, unknown => do
    let (vals2, consumed) ← fieldsPassF1 fuel fields tagMap vals []
    if hasUnknown then
      let leftovers := (tagMap.filter fun kp => !(consumed.contains kp.1)).map fun kp => kp.2
      if leftovers.isEmpty then .ok (vals2, unknown) else .ok (vals2, leftovers)
    else .ok (vals2, unknown)

/-- Field loop of the older engine; `consumed` models `consumedTags`. -/
def fieldsPassF1 : Nat → SchemaFields → List (String × TLV) →
    List (Option FieldVal) → List String →
    Except String (List (Option FieldVal) × List String)
  | 0, _, _, _, _ => .error "out of fuel"
  | fuel + 1, fields, tagMap, vals, consumed =>
    match fields, vals with
    | [], _ => .ok ([], consumed)
    | _ :: _, [] => .ok ([], consumed)
    | (tag, k) :: fs, v :: vs =>
      match tagMap.lookup (upperStr tag) with
      | none => do
        let (vs2, c2) ← fieldsPassF1 fuel fs tagMap vs consumed
        .ok (v :: vs2, c2)
      | some p => do
        let v2 ← oldFieldAssignF fuel p k v
        let (vs2, c2) ← fieldsPassF1 fuel fs tagMap vs (consumed ++ [upperStr tag])
        .ok (v2 :: vs2, c2)

/-- Per-field assignment of the older engine (parser.go lines 96-128): byte
slices prefer the raw value and fall back to re-encoded children; strings
take the hex of the value; nested structs recurse; any other slice kind falls
through untouched (the older engine has no repeated-field support). -/
def oldFieldAssignF : Nat → TLV → FieldKind → Option FieldVal →
    Except String (Option FieldVal)
  | 0, _, _, _ => .error "out of fuel"
  | fuel + 1, p, k, cur =>
    match k with
    | .bytes =>
      if ¬ p.value.isEmpty then .ok (some (.bytes p.value))
      else if ¬ p.children.isEmpty then
        match bertlvEncodeList p.children with
        | .ok enc => .ok (some (.bytes enc))
        | .error _ => .ok cur
      else .ok cur
    | .hexStr => .ok (some (.hexStr (bytesToHexLower p.value)))
    | .nested fs hu => do
      let s :=
        match cur with
        | some (.nested vs un) => (vs, un)
        | _ => (List.replicate fs.length none, [])
      if ¬ p.children.isEmpty then do
        let (vs2, un2) ← unmarshalFP1 fuel (tagMapOf p.children) fs hu s.1 s.2
        .ok (some (.nested vs2 un2))
      else
        match bertlvDecode p.value with
        | .error e => .error ("bertlv decode failed: " ++ e)
        | .ok pkts => do
          let (vs2, un2) ← unmarshalFP1 fuel (tagMapOf pkts) fs hu s.1 s.2
          .ok (some (.nested vs2 un2))
    | .nestedList _ _ => .ok cur

end

/-- Go parser.go (older generation) `UnmarshalFromPackets` at canonical fuel,
as a function of the tag map presented in some enumeration order: a run of
the Go engine on `packets` corresponds to `UnmarshalFromPackets1 iter ...`
for some `iter` with `iter.Perm (tagMapOf packets)` (Go randomizes map
iteration order). -/
def UnmarshalFromPackets1 (tagMapIter : List (String × TLV))
    (fields : SchemaFields) (hasUnknown : Bool)
    (vals : List (Option FieldVal)) (unknown : List TLV) :
    Except String (List (Option FieldVal) × List TLV) :=
  unmarshalFP1 engineFuel tagMapIter fields hasUnknown vals unknown

/-- The packets whose tag matches a given uppercased tag, in encounter
order. -/
def matchingPackets (tagU : String) (packets : List TLV) : List TLV :=
  packets.filter fun p => upperStr p.tag == tagU

/-- Pointwise relation: each listed element was produced by a (fresh) nested
decode of the corresponding packet, at some fuel. -/
def elemsDecodeProp (fs : SchemaFields) (hu : Bool) : List TLV → List FieldVal → Prop
  | [], [] => True
  | p :: ps, e :: es =>
    (∃ f, decodeNestedF2 f p fs hu none = .ok e) ∧ elemsDecodeProp fs hu ps es
  | _, _ => False

/-! ## pkg/iso7816/fci.go — SELECT response resolution -/

/-- FCPTemplate schema (fci.go lines 29-52), in declaration order:
DataSizeExcludingStruct 80, TotalFileSize 81, FileDescriptor 82,
FileIdentifier 83, DFName 84, ProprietaryInfoRaw 85, SecurityAttrProprietary
86, ExtFileControlInfoID 87, ShortEFIdentifier 88, LifeCycleStatus 8A,
SecAttrRefExpanded 8B, SecurityAttrCompact 8C, SecEnvTemplateID 8D,
ChannelSecurityAttr 8E, SecAttrTemplateData A0, SecAttrTemplateProp A1,
OneOrMorePairs A2, ProprietaryDataBER A5, SecurityAttrExpanded AB,
CryptoMechanismID AC — all byte slices — plus a catch-all Unknown slot. -/
def fcpFields : SchemaFields :=
  [("80", .bytes), ("81", .bytes), ("82", .bytes), ("83", .bytes), ("84", .bytes),
   ("85", .bytes), ("86", .bytes), ("87", .bytes), ("88", .bytes), ("8A", .bytes),
   ("8B", .bytes), ("8C", .bytes), ("8D", .bytes), ("8E", .bytes), ("A0", .bytes),
   ("A1", .bytes), ("A2", .bytes), ("A5", .bytes), ("AB", .bytes), ("AC", .bytes)]

/-- FMDTemplate schema (fci.go lines 55-62): ApplicationIdentifier 84,
ApplicationLabel 50, ProprietaryData53 53, ProprietaryData73 73, plus a
catch-all Unknown slot. -/
def fmdFields : SchemaFields :=
  [("84", .bytes), ("50", .bytes), ("53", .bytes), ("73", .bytes)]

/-- A template object: its mapped field values plus its own Unknown list. -/
abbrev TemplateState := List (Option FieldVal) × List TLV

/-- Go `&FCPTemplate\x7b\x7d`: the freshly allocated, empty FCP template. -/
def emptyFcp : TemplateState := (List.replicate 20 none, [])

/-- Go `&FMDTemplate\x7b\x7d`: the freshly allocated, empty FMD template. -/
def emptyFmd : TemplateState := (List.replicate 4 none, [])

/-- Go `FileControlInfo`; the FCP/FMD pointers are nillable. -/
structure FileControlInfo where
  fcp : Option TemplateState
  fmd : Option TemplateState
  unknown : List TLV
  proprietaryRawData : List Nat

/-- Errors `ParseSelectData` can produce, by source. -/
inductive SelectErr where
  /-- Go: BER-TLV decode failed -/
  | tlvDecodeFailed (msg : String)
  /-- Go: mandatory tag not found -/
  | mandatoryTagMissing (tag : String)
  /-- Go: flat FCP unmarshal failed -/
  | flatFCPUnmarshal (msg : String)
  /-- Go: flat FMD unmarshal failed -/
  | flatFMDUnmarshal (msg : String)
deriving DecidableEq, Repr

/-- First packet whose tag matches case-insensitively (Go loops with
`strings.EqualFold`). -/
def findFirstTag (packets : List TLV) (tag : String) : Option TLV :=
  packets.find? fun p => upperStr p.tag == upperStr tag

/-- Go fci.go `unmarshalIfTagExists`: maps the first matching packet's
children onto the target, reporting whether a (successfully unmarshalled)
match was found.  On an engine error Go reports false and leaves the target
partially mutated; for the FCP/FMD schemas (plain byte fields) the engine
cannot fail, so returning the initial state is faithful here. -/
def unmarshalIfTagExists (packets : List TLV) (tag : String)
    (fields : SchemaFields) (s : TemplateState) : TemplateState × Bool :=
  match findFirstTag packets tag with
  | none => (s, false)
  | some p =>
    match UnmarshalFromPackets2 p.children fields true s.1 s.2 with
    | .ok r => (r, true)
    | .error _ => (s, false)

/-- The `FileControlInfo` as freshly allocated by `ParseSelectData` (both
template pointers set to empty templates). -/
def emptyFci : FileControlInfo :=
  { fcp := some emptyFcp, fmd := some emptyFmd, unknown := [],
    proprietaryRawData := [] }

/-- Go fci.go lines 133-140: the working set for the FCI-generic control —
the children of the first top-level 6F wrapper when present, else the
top-level nodes themselves. -/
def workingPacketsOf (packets : List TLV) : List TLV :=
  match findFirstTag packets "6F" with
  | some p => p.children
  | none => packets

/-- Go `ParseSelectData`: resolves the SELECT response according to the P2
selection control (bits 4-3).  Returns the Go result pair (both components
can be set at once, as the mandatory-template paths do).  Go's local
variables `control`, `workingPackets`, `foundFCP`, `foundFMD` are inlined
(the helper `workingPacketsOf` names the working-set computation). -/
def ParseSelectData (data : List Nat) (p2 : Nat) :
    Option FileControlInfo × Option SelectErr :=
  if data = [] then (none, none)
  else if 0xC0 ≤ data.headD 0 then
    (some { fcp := none, fmd := none, unknown := [], proprietaryRawData := data },
     none)
  else
    match bertlvDecode data with
    | .error e => (none, some (.tlvDecodeFailed e))
    | .ok packets =>
      if bits.GetRange p2 4 3 = 1 then
        match unmarshalIfTagExists packets "62" fcpFields emptyFcp with
        | (r, true) => (some { emptyFci with fcp := some r }, none)
        | (_, false) => (some emptyFci, some (.mandatoryTagMissing "62"))
      else if bits.GetRange p2 4 3 = 2 then
        match unmarshalIfTagExists packets "64" fmdFields emptyFmd with
        | (r, true) => (some { emptyFci with fmd := some r }, none)
        | (_, false) => (some emptyFci, some (.mandatoryTagMissing "64"))
      else if bits.GetRange p2 4 3 = 0 then
        if (unmarshalIfTagExists (workingPacketsOf packets) "62" fcpFields emptyFcp).2
            || (unmarshalIfTagExists (workingPacketsOf packets) "64" fmdFields emptyFmd).2 then
          (some { fcp := some (unmarshalIfTagExists (workingPacketsOf packets) "62" fcpFields emptyFcp).1,
                  fmd := some (unmarshalIfTagExists (workingPacketsOf packets) "64" fmdFields emptyFmd).1,
                  unknown := [], proprietaryRawData := [] }, none)
        else
          match UnmarshalFromPackets2 (workingPacketsOf packets) fcpFields true
              emptyFcp.1 emptyFcp.2 with
          | .error e => (none, some (.flatFCPUnmarshal e))
          | .ok (fcpVals, fcpUnknown) =>
            match UnmarshalFromPackets2 fcpUnknown fmdFields true
                emptyFmd.1 emptyFmd.2 with
            | .error e => (none, some (.flatFMDUnmarshal e))
            | .ok (fmdVals, fmdUnknown) =>
              (some { fcp := some (fcpVals, []), fmd := some (fmdVals, []),
                      unknown := fmdUnknown, proprietaryRawData := [] }, none)
      else (none, none)

def isLeafKind : FieldKind → Bool
  | .bytes => true
  | .hexStr => true
  | _ => false

def isLeafPacket (p : TLV) : Bool :=
  p.children.isEmpty && !p.value.isEmpty

def leafAssign (p : TLV) (k : FieldKind) (cur : Option FieldVal) : Option FieldVal :=
  match k with
  | .bytes => some (.bytes p.value)
  | .hexStr => some (.hexStr (bytesToHexLower p.value))
  | _ => cur

def anyFieldMatches (fields : SchemaFields) (p : TLV) : Bool :=
  fields.any fun tk => upperStr tk.1 == upperStr p.tag

def flatVals : SchemaFields → List TLV → List (Option FieldVal) → List (Option FieldVal)
  | [], _, _ => []
  | _ :: _, _, [] => []
  | (tag, k) :: fs, packets, v :: vs =>
    (match (matchingPackets (upperStr tag) packets).getLast? with
     | none => v
     | some p => leafAssign p k v) :: flatVals fs packets vs

def flatUnknown (fields : SchemaFields) (packets : List TLV) : List TLV :=
  packets.filter fun p => !(anyFieldMatches fields p)

def consumedSpec (fields : SchemaFields) (packets : List TLV) : List String :=
  (fields.filter fun tk =>
      (packets.find? fun p => upperStr p.tag == upperStr tk.1).isSome).map
    fun tk => upperStr tk.1

/-! ## Theorems -/

/-! ## C1: class-byte round trip -/

/-- C1 (counterexample): the claim states `encode (decode b) = b` for every byte
`b ≠ 0xFF`, explicitly including the whole first-interindustry range 0x00-0x3F.
It fails at `b = 0x20`: decoding drops bit 6 (unused by the first-interindustry
layout) and re-encoding yields 0x00. -/
theorem C1_roundtrip_counterexample :
    (0x20 : Nat) ≠ 0xFF ∧ (NewClass 0x20).map Class.encode = Except.ok 0x00 ∧
      (0x20 : Nat) ≠ 0x00 := by
  refine ⟨by decide, rfl, by decide⟩

set_option maxRecDepth 40000 in
/-- C1 (amended): `encode (decode b) = b` for every byte `b ≠ 0xFF` outside
0x20-0x3F, i.e. for proprietary bytes (bit 8 set), first-interindustry bytes
0x00-0x1F, and further-interindustry bytes 0x40-0x7F.  Bytes 0x20-0x3F decode
successfully but lose bit 6 on re-encoding. -/
theorem C1_roundtrip_amended (b : Nat) (hb : b < 256) (hff : b ≠ 0xFF)
    (hres : ¬ (0x20 ≤ b ∧ b ≤ 0x3F)) :
    (NewClass b).map Class.encode = Except.ok b := by
  revert hff hres
  revert hb
  revert b
  decide

/-- Witness for C1_roundtrip_amended at b = 0x41. -/
theorem C1_roundtrip_amended_witness :
    (NewClass 0x41).map Class.encode = Except.ok 0x41 :=
  C1_roundtrip_amended 0x41 (by decide) (by decide) (by decide)

/-! ## C5: status classification exclusivity -/

/-- C5: for every status word, at most one of IsSuccess, IsWarning, IsError
holds (pairwise exclusion), with IsSuccess = (sw == 0x9000) OR (SW1 == 0x61). -/
theorem C5_classification_exclusive (sw : StatusWord) :
    (¬ (IsSuccess sw = true ∧ IsWarning sw = true)) ∧
    (¬ (IsSuccess sw = true ∧ IsError sw = true)) ∧
    (¬ (IsWarning sw = true ∧ IsError sw = true)) := by
  refine ⟨?_, ?_, ?_⟩ <;> rintro ⟨h1, h2⟩ <;>
    simp only [IsSuccess, IsWarning, IsError, Bool.or_eq_true, beq_iff_eq,
      Bool.and_eq_true, decide_eq_true_eq, SW_NO_ERROR] at h1 h2
  · rcases h1 with h1 | h1
    · subst h1; revert h2; decide
    · omega
  · rcases h1 with h1 | h1
    · subst h1; revert h2; decide
    · omega
  · omega

/-! ## C9: extended-mode trigger -/

/-- C9: the encoder selects extended length encoding iff nc > 255 or ne > 256;
expressed through the width of the emitted Lc/Le fields: the Lc field takes 3
bytes (0x00 flag + 2-byte length) exactly under that condition and 1 byte
otherwise, and the Le field takes 2 bytes (3 with the leading 0x00
disambiguator when no data is present) exactly under that condition and 1 byte
otherwise. -/
theorem C9_extended_trigger (c : CommandAPDU) :
    (CommandAPDU.bytes c).length =
      4 + (if c.data.length = 0 then 0
           else (if c.data.length > 255 ∨ c.ne > 256 then 3 else 1) + c.data.length)
        + (if c.ne = 0 then 0
           else if c.data.length > 255 ∨ c.ne > 256 then
             (if c.data.length = 0 then 3 else 2)
           else 1) := by
  simp only [CommandAPDU.bytes, MaxShortLc, MaxShortLe, MaxExtendedLe]
  split_ifs <;> simp_all [List.length_append] <;> omega

/-! ## C2: 61xx handling -/

/-- C2: when the parsed response has SW1 = 0x61, `Send` recursively sends a
GET RESPONSE command on the same logical channel (class copied with the
chaining bit cleared), P1 = P2 = 0, empty data, Ne = SW2, and on success of
the recursive call appends its entire sub-trace after the current
transaction (on failure of the recursive call the sub-trace is dropped and the
error propagated). -/
theorem C2_get_response_on_61 (script rest : Script) (raw : List Nat)
    (cmd : CommandAPDU) (resp : ResponseAPDU)
    (hscript : script = Except.ok raw :: rest)
    (hparse : ParseResponseAPDU raw = .ok resp)
    (hsw : SW1 resp.status = 0x61) :
    clientSend script cmd =
      match clientSend rest (getResponseCmdFor cmd resp) with
      | (_, some e, rest2) => ([⟨cmd, some resp⟩], some e, rest2)
      | (subTrace, none, rest2) => (⟨cmd, some resp⟩ :: subTrace, none, rest2) := by
  subst hscript
  simp only [clientSend, hparse, hsw, getResponseCmdFor, if_pos]
  rcases clientSend rest (getResponseCmdFor cmd resp) with ⟨subTrace, oe, rest2⟩
  cases oe <;> simp [getResponseCmdFor]

/-- Witness for C2_get_response_on_61: a scripted 61 03 answer followed by a
9000 answer carrying 3 data bytes yields the two-transaction trace, the second
transaction being the generated GET RESPONSE with Ne = 3. -/
theorem C2_get_response_witness :
    clientSend [Except.ok [0x61, 0x03], Except.ok [0xAA, 0xBB, 0xCC, 0x90, 0x00]] exCmd =
      ([⟨exCmd, some ⟨[], 0x6103⟩⟩,
        ⟨⟨exClass, insGetResponse, 0x00, 0x00, [], 3⟩, some ⟨[0xAA, 0xBB, 0xCC], 0x9000⟩⟩],
       none, []) := by
  have h := C2_get_response_on_61
    [Except.ok [0x61, 0x03], Except.ok [0xAA, 0xBB, 0xCC, 0x90, 0x00]]
    [Except.ok [0xAA, 0xBB, 0xCC, 0x90, 0x00]] [0x61, 0x03] exCmd ⟨[], 0x6103⟩
    rfl rfl rfl
  exact h.trans rfl

/-- C4 (counterexample): with the script 61 01 / 61 01 / transport-error, the
outer `Send` completes its transaction, the recursive GET RESPONSE sub-send
completes a second transaction (shown by evaluating the sub-call), and then
the transport fails.  The caller receives the error with a trace holding ONLY
the first transaction: the second, though completed before the failure, is
discarded, refuting the claim that every transaction completed before the
failure is visible to the caller. -/
theorem C4_counterexample :
    clientSend [Except.ok [0x61, 0x01], Except.ok [0x61, 0x01], Except.error "boom"] exCmd =
      ([⟨exCmd, some ⟨[], 0x6101⟩⟩], some (.transmission "boom"), []) ∧
    clientSend [Except.ok [0x61, 0x01], Except.error "boom"] exCmdGR1 =
      ([⟨exCmdGR1, some ⟨[], 0x6101⟩⟩], some (.transmission "boom"), []) ∧
    (⟨exCmdGR1, some ⟨[], 0x6101⟩⟩ : Transaction) ∉
      ([⟨exCmd, some ⟨[], 0x6101⟩⟩] : Trace) :=
  ⟨rfl, rfl, by decide⟩

/-- C4 (amended): when any (possibly recursive) `Send` step fails, the error is
propagated, but the returned trace holds at most one transaction — the one the
current level completed before recursing.  Transactions completed inside a
failed recursive sub-send are discarded rather than appended. -/
theorem C4_error_trace_amended (script : Script) (cmd : CommandAPDU)
    (tr : Trace) (e : SendErr) (s2 : Script)
    (h : clientSend script cmd = (tr, some e, s2)) :
    tr.length ≤ 1 := by
  match script with
  | [] =>
    simp only [clientSend, Prod.mk.injEq] at h
    simp [← h.1]
  | r :: rest =>
    simp only [clientSend] at h
    split at h
    · simp only [Prod.mk.injEq] at h
      simp [← h.1]
    · split at h
      · simp only [Prod.mk.injEq] at h
        simp [← h.1]
      · split at h
        · split at h
          · simp only [Prod.mk.injEq] at h
            simp [← h.1]
          · simp only [Prod.mk.injEq] at h
            simp at h
        · split at h
          · split at h
            · simp only [Prod.mk.injEq] at h
              simp [← h.1]
            · simp only [Prod.mk.injEq] at h
              simp at h
          · simp only [Prod.mk.injEq] at h
            simp [← h.1]

/-- Witness for C4_error_trace_amended on the C4 scenario script. -/
theorem C4_error_trace_amended_witness :
    ([⟨exCmd, some ⟨[], 0x6101⟩⟩] : Trace).length ≤ 1 :=
  C4_error_trace_amended
    [Except.ok [0x61, 0x01], Except.ok [0x61, 0x01], Except.error "boom"] exCmd
    [⟨exCmd, some ⟨[], 0x6101⟩⟩] (.transmission "boom") [] rfl

/-- Bind of the Except monad on an ok value (do-notation helper). -/
theorem exceptBind_ok {α β : Type} (a : α) (f : α → Except String β) :
    (Except.ok a >>= f) = f a := rfl

/-- Bind of the Except monad on an error (do-notation helper). -/
theorem exceptBind_error {α β : Type} (e : String) (f : α → Except String β) :
    ((Except.error e : Except String α) >>= f) = Except.error e := rfl

theorem matchingPackets_nil (tagU : String) : matchingPackets tagU [] = [] := rfl

theorem matchingPackets_cons_pos {tagU : String} {p : TLV} (rest : List TLV)
    (hm : upperStr p.tag = tagU) :
    matchingPackets tagU (p :: rest) = p :: matchingPackets tagU rest := by
  simp [matchingPackets, hm]

theorem matchingPackets_cons_neg {tagU : String} {p : TLV} (rest : List TLV)
    (hm : ¬ upperStr p.tag = tagU) :
    matchingPackets tagU (p :: rest) = matchingPackets tagU rest := by
  simp [matchingPackets, hm]

/-- A successful per-field packet pass leaves the underlying packet sequence
unchanged (only consumption flags change). -/
theorem fieldPassF2_packets_eq (tagU : String) (k : FieldKind) :
    ∀ (pcs : List (TLV × Bool)) (fuel : Nat) (cur : Option FieldVal) v2 pcs2,
      fieldPassF2 fuel tagU k pcs cur = .ok (v2, pcs2) →
      pcs2.map Prod.fst = pcs.map Prod.fst := by
  intro pcs
  induction pcs with
  | nil =>
    intro fuel cur v2 pcs2 h
    cases fuel with
    | zero => exact absurd h (by simp [fieldPassF2])
    | succ f =>
      simp only [fieldPassF2] at h
      cases h
      rfl
  | cons pc rest ih =>
    intro fuel cur v2 pcs2 h
    cases fuel with
    | zero => exact absurd h (by simp [fieldPassF2])
    | succ f =>
      rcases pc with ⟨p, c⟩
      simp only [fieldPassF2] at h
      by_cases hm : upperStr p.tag = tagU
      · rw [if_pos hm] at h
        rcases hmp : mapPacketToFieldF2 f p k cur with e | v
        · rw [hmp, exceptBind_error] at h
          exact absurd h (by simp)
        · rw [hmp, exceptBind_ok] at h
          rcases hrec : fieldPassF2 f tagU k rest (some v) with e2 | ⟨v3, rest2⟩
          · rw [hrec, exceptBind_error] at h
            exact absurd h (by simp)
          · rw [hrec, exceptBind_ok] at h
            cases h
            simp only [List.map_cons]
            rw [ih f (some v) v3 rest2 hrec]
      · rw [if_neg hm] at h
        rcases hrec : fieldPassF2 f tagU k rest cur with e2 | ⟨v3, rest2⟩
        · rw [hrec, exceptBind_error] at h
          exact absurd h (by simp)
        · rw [hrec, exceptBind_ok] at h
          cases h
          simp only [List.map_cons]
          rw [ih f cur v3 rest2 hrec]

/-- Per-field pass on a repeated (slice) field: every matching packet is
freshly decoded and appended in encounter order. -/
theorem fieldPassF2_nestedList_spec (tagU : String) (fs : SchemaFields) (hu : Bool) :
    ∀ (pcs : List (TLV × Bool)) (fuel : Nat) (cur : Option FieldVal) (es0 : List FieldVal)
      (_ : (cur = none ∧ es0 = []) ∨ cur = some (.listOf es0))
      v2 pcs2,
      fieldPassF2 fuel tagU (.nestedList fs hu) pcs cur = .ok (v2, pcs2) →
      ∃ L, elemsDecodeProp fs hu (matchingPackets tagU (pcs.map Prod.fst)) L ∧
        (matchingPackets tagU (pcs.map Prod.fst) = [] → v2 = cur) ∧
        (matchingPackets tagU (pcs.map Prod.fst) ≠ [] → v2 = some (.listOf (es0 ++ L))) := by
  intro pcs
  induction pcs with
  | nil =>
    intro fuel cur es0 hcur v2 pcs2 h
    cases fuel with
    | zero => exact absurd h (by simp [fieldPassF2])
    | succ f =>
      simp only [fieldPassF2] at h
      cases h
      exact ⟨[], by simp [matchingPackets_nil, elemsDecodeProp], fun _ => rfl,
        fun hne => absurd rfl hne⟩
  | cons pc rest ih =>
    intro fuel cur es0 hcur v2 pcs2 h
    cases fuel with
    | zero => exact absurd h (by simp [fieldPassF2])
    | succ f =>
      rcases pc with ⟨p, c⟩
      simp only [fieldPassF2] at h
      by_cases hm : upperStr p.tag = tagU
      · rw [if_pos hm] at h
        rcases hmp : mapPacketToFieldF2 f p (.nestedList fs hu) cur with e | v
        · rw [hmp, exceptBind_error] at h
          exact absurd h (by simp)
        · rw [hmp, exceptBind_ok] at h
          rcases hrec : fieldPassF2 f tagU (.nestedList fs hu) rest (some v) with e2 | ⟨v3, rest2⟩
          · rw [hrec, exceptBind_error] at h
            exact absurd h (by simp)
          · rw [hrec, exceptBind_ok] at h
            cases h
            cases f with
            | zero => exact absurd hmp (by simp [mapPacketToFieldF2])
            | succ f2 =>
              simp only [mapPacketToFieldF2] at hmp
              rcases hdn : decodeNestedF2 f2 p fs hu none with er | e
              · rw [hdn, exceptBind_error] at hmp
                exact absurd hmp (by simp)
              · rw [hdn, exceptBind_ok] at hmp
                have hv : v = .listOf (es0 ++ [e]) := by
                  rcases hcur with ⟨hc, he⟩ | hc
                  · subst hc; subst he
                    simpa using hmp.symm
                  · subst hc
                    simpa using hmp.symm
                subst hv
                obtain ⟨L2, hL2, hempty, hnonempty⟩ :=
                  ih (f2 + 1) (some (.listOf (es0 ++ [e]))) (es0 ++ [e]) (Or.inr rfl)
                    v3 rest2 hrec
                refine ⟨e :: L2, ?_, ?_, ?_⟩
                · rw [List.map_cons, matchingPackets_cons_pos _ hm]
                  exact ⟨⟨f2, hdn⟩, hL2⟩
                · intro habs
                  rw [List.map_cons, matchingPackets_cons_pos _ hm] at habs
                  cases habs
                · intro _
                  by_cases hms : matchingPackets tagU (rest.map Prod.fst) = []
                  · cases L2 with
                    | nil =>
                      rw [hempty hms]
                    | cons x xs =>
                      rw [hms] at hL2
                      exact absurd hL2 (by simp [elemsDecodeProp])
                  · rw [hnonempty hms]
                    simp
      · rw [if_neg hm] at h
        rcases hrec : fieldPassF2 f tagU (.nestedList fs hu) rest cur with e2 | ⟨v3, rest2⟩
        · rw [hrec, exceptBind_error] at h
          exact absurd h (by simp)
        · rw [hrec, exceptBind_ok] at h
          cases h
          obtain ⟨L2, hL2, hempty, hnonempty⟩ := ih f cur es0 hcur v3 rest2 hrec
          refine ⟨L2, ?_, ?_, ?_⟩
          · rw [List.map_cons, matchingPackets_cons_neg _ hm]
            exact hL2
          · intro habs
            rw [List.map_cons, matchingPackets_cons_neg _ hm] at habs
            exact hempty habs
          · intro hne
            rw [List.map_cons, matchingPackets_cons_neg _ hm] at hne
            exact hnonempty hne

/-- The i-th output value of the fields pass comes from that field's own
per-field packet pass, run over the same underlying packets. -/
theorem fieldsPassF2_index :
    ∀ (fields : SchemaFields) (fuel : Nat) (pcs : List (TLV × Bool))
      (vals : List (Option FieldVal)) vals2 pcsN,
      fieldsPassF2 fuel fields pcs vals = .ok (vals2, pcsN) →
      ∀ (i : Nat) (tag : String) (k : FieldKind) (v : Option FieldVal),
        fields[i]? = some (tag, k) → vals[i]? = some v →
      ∃ fuelA pcsA v2 pcsB,
        fieldPassF2 fuelA (upperStr tag) k pcsA v = .ok (v2, pcsB) ∧
        vals2[i]? = some v2 ∧ pcsA.map Prod.fst = pcs.map Prod.fst := by
  intro fields
  induction fields with
  | nil =>
    intro fuel pcs vals vals2 pcsN h i tag k v hf hv
    simp at hf
  | cons tk fsT ih =>
    intro fuel pcs vals vals2 pcsN h i tag k v hf hv
    cases fuel with
    | zero => exact absurd h (by simp [fieldsPassF2])
    | succ f =>
      rcases tk with ⟨tag0, k0⟩
      cases vals with
      | nil => simp at hv
      | cons v0 vs =>
        simp only [fieldsPassF2] at h
        rcases hfp : fieldPassF2 f (upperStr tag0) k0 pcs v0 with e | ⟨v2a, pcs2⟩
        · rw [hfp, exceptBind_error] at h
          exact absurd h (by simp)
        · rw [hfp, exceptBind_ok] at h
          rcases hfs : fieldsPassF2 f fsT pcs2 vs with e2 | ⟨vs2, pcs3⟩
          · rw [hfs, exceptBind_error] at h
            exact absurd h (by simp)
          · rw [hfs, exceptBind_ok] at h
            cases h
            cases i with
            | zero =>
              simp only [List.getElem?_cons_zero, Option.some.injEq] at hf hv
              obtain ⟨rfl, rfl⟩ : tag0 = tag ∧ k0 = k := Prod.mk.injEq .. ▸ hf
              subst hv
              exact ⟨f, pcs, v2a, pcs2, hfp, by simp, rfl⟩
            | succ j =>
              simp only [List.getElem?_cons_succ] at hf hv
              obtain ⟨fuelA, pcsA, v2b, pcsB, hA, hidx, hmap⟩ :=
                ih f pcs2 vs vs2 pcs3 hfs j tag k v hf hv
              refine ⟨fuelA, pcsA, v2b, pcsB, hA, by simpa using hidx, ?_⟩
              rw [hmap, fieldPassF2_packets_eq _ _ pcs f v0 v2a pcs2 hfp]

/-- Fueled form of the repeated-field property (C7), for any fuel at which
the run succeeds. -/
theorem unmarshalFP2_repeated (fuel : Nat) (packets : List TLV)
    (fields : SchemaFields) (hu : Bool)
    (i : Nat) (tag : String) (fs : SchemaFields) (hu2 : Bool) (m1 m2 : TLV)
    (valsOut : List (Option FieldVal)) (unk : List TLV)
    (hfield : fields[i]? = some (tag, .nestedList fs hu2))
    (hms : matchingPackets (upperStr tag) packets = [m1, m2])
    (hrun : unmarshalFP2 fuel packets fields hu
      (List.replicate fields.length none) [] = .ok (valsOut, unk)) :
    ∃ e1 e2, valsOut[i]? = some (some (.listOf [e1, e2])) ∧
      (∃ f1, decodeNestedF2 f1 m1 fs hu2 none = .ok e1) ∧
      (∃ f2, decodeNestedF2 f2 m2 fs hu2 none = .ok e2) := by
  cases fuel with
  | zero => exact absurd hrun (by simp [unmarshalFP2])
  | succ f =>
    simp only [unmarshalFP2] at hrun
    rcases hfp : fieldsPassF2 f fields (packets.map fun p => (p, false))
        (List.replicate fields.length none) with e | ⟨vals2, pcs2⟩
    · rw [hfp, exceptBind_error] at hrun
      exact absurd hrun (by simp)
    · rw [hfp, exceptBind_ok] at hrun
      have hvals : valsOut = vals2 := by
        cases hu with
        | false =>
          simp only [Bool.false_eq_true, if_false] at hrun
          cases hrun
          rfl
        | true =>
          simp only [if_true] at hrun
          by_cases hemp : ((pcs2.filter fun pc => !pc.2).map fun pc => pc.1).isEmpty = true
          · rw [if_pos hemp] at hrun
            cases hrun
            rfl
          · rw [if_neg hemp] at hrun
            cases hrun
            rfl
      have hlen : i < fields.length := by
        by_contra hge
        rw [List.getElem?_eq_none (le_of_not_lt hge)] at hfield
        cases hfield
      have hv0 : (List.replicate fields.length (none : Option FieldVal))[i]? = some none := by
        simp [List.getElem?_replicate, hlen]
      obtain ⟨fuelA, pcsA, v2, pcsB, hA, hidx, hmap⟩ :=
        fieldsPassF2_index fields f _ _ vals2 pcs2 hfp i tag (.nestedList fs hu2) none
          hfield hv0
      have hpk : pcsA.map Prod.fst = packets := by
        rw [hmap, List.map_map]
        exact List.map_id packets
      obtain ⟨L, hL, _, hnonempty⟩ :=
        fieldPassF2_nestedList_spec (upperStr tag) fs hu2 pcsA fuelA none []
          (Or.inl ⟨rfl, rfl⟩) v2 pcsB hA
      rw [hpk, hms] at hL hnonempty
      have hv2 : v2 = some (.listOf ([] ++ L)) := hnonempty (by simp)
      cases L with
      | nil => exact absurd hL (by simp [elemsDecodeProp])
      | cons e1 L2 =>
        cases L2 with
        | nil => exact absurd hL (by simp [elemsDecodeProp])
        | cons e2 L3 =>
          cases L3 with
          | cons x xs => exact absurd hL (by simp [elemsDecodeProp])
          | nil =>
            simp only [elemsDecodeProp] at hL
            refine ⟨e1, e2, ?_, hL.1, hL.2.1⟩
            rw [hvals, hidx, hv2]
            simp

/-! ## C7: repeated fields -/

/-- C7: for every schema whose i-th field is a repeated (slice-typed,
non-byte) nested field and every packet list whose matching siblings for that
field's tag are exactly two nodes m1 and m2 (in encounter order), a
successful run of the current engine puts exactly two mapped entries into
that field: the fresh decode of m1 followed by the fresh decode of m2. -/
theorem C7_repeated_entries (packets : List TLV) (fields : SchemaFields) (hu : Bool)
    (i : Nat) (tag : String) (fs : SchemaFields) (hu2 : Bool) (m1 m2 : TLV)
    (valsOut : List (Option FieldVal)) (unk : List TLV)
    (hfield : fields[i]? = some (tag, .nestedList fs hu2))
    (hms : matchingPackets (upperStr tag) packets = [m1, m2])
    (hrun : UnmarshalFromPackets2 packets fields hu
      (List.replicate fields.length none) [] = .ok (valsOut, unk)) :
    ∃ e1 e2, valsOut[i]? = some (some (.listOf [e1, e2])) ∧
      (∃ f1, decodeNestedF2 f1 m1 fs hu2 none = .ok e1) ∧
      (∃ f2, decodeNestedF2 f2 m2 fs hu2 none = .ok e2) :=
  unmarshalFP2_repeated engineFuel packets fields hu i tag fs hu2 m1 m2 valsOut unk
    hfield hms hrun

/-- Witness for C7_repeated_entries: a one-field schema with a repeated
nested field on tag A0 applied to two A0 siblings. -/
theorem C7_repeated_entries_witness :
    ∃ e1 e2,
      ([some (FieldVal.listOf [.nested [some (.bytes [1])] [],
                               .nested [some (.bytes [2])] []])] :
        List (Option FieldVal))[0]? = some (some (.listOf [e1, e2])) ∧
      (∃ f1, decodeNestedF2 f1 (TLV.mk "A0" [] [TLV.mk "50" [1] []])
        [("50", FieldKind.bytes)] false none = .ok e1) ∧
      (∃ f2, decodeNestedF2 f2 (TLV.mk "A0" [] [TLV.mk "50" [2] []])
        [("50", FieldKind.bytes)] false none = .ok e2) :=
  C7_repeated_entries
    [TLV.mk "A0" [] [TLV.mk "50" [1] []], TLV.mk "A0" [] [TLV.mk "50" [2] []]]
    [("A0", FieldKind.nestedList [("50", FieldKind.bytes)] false)] false
    0 "A0" [("50", FieldKind.bytes)] false
    (TLV.mk "A0" [] [TLV.mk "50" [1] []]) (TLV.mk "A0" [] [TLV.mk "50" [2] []])
    [some (.listOf [.nested [some (.bytes [1])] [], .nested [some (.bytes [2])] []])] []
    rfl rfl rfl

/-! ## C6: the flat FCI scenario -/

/-- C6: parsing 82 01 38 / 50 03 `TES` / 99 02 CAFE under the FCI-generic
control (P2 bits 4-3 = 00) maps the working set flat: FCP.FileDescriptor
(schema index 2, tag 82) becomes 0x38; the FCP leftovers (50, 99) are mapped
onto the FMD schema, setting FMD.ApplicationLabel (schema index 1, tag 50) to
the bytes of TES; and the FMD leftovers — exactly the single tag-99 node —
are promoted to the outer unknown list, both template Unknown lists being
cleared. -/
theorem C6_flat_fci_scenario :
    ParseSelectData [0x82, 0x01, 0x38, 0x50, 0x03, 0x54, 0x45, 0x53, 0x99, 0x02, 0xCA, 0xFE] 0x00 =
      (some { fcp := some ([none, none, some (.bytes [0x38]), none, none, none, none, none,
                            none, none, none, none, none, none, none, none, none, none, none, none], []),
              fmd := some ([none, some (.bytes [0x54, 0x45, 0x53]), none, none], []),
              unknown := [TLV.mk "99" [0xCA, 0xFE] []],
              proprietaryRawData := [] }, none) := rfl

/-! ## C3: error paths of ParseSelectData -/

/-- C3 (counterexample): the claim says a failing mapping/decode step returns
a single error with no partial result object alongside it, explicitly
including the mandatory-template case.  But for an FMD-wrapped response
requested with FCP-mandatory control (the repository's own
"Error: Mismatch P2 vs Data" test input), `ParseSelectData` returns a
non-nil `FileControlInfo` TOGETHER with the error (Go:
`return fci, handleMandatoryTemplate(...)`). -/
theorem C3_counterexample :
    (ParseSelectData [0x64, 0x05, 0x50, 0x03, 0x58, 0x59, 0x5A] 0x04).1.isSome = true ∧
    (ParseSelectData [0x64, 0x05, 0x50, 0x03, 0x58, 0x59, 0x5A] 0x04).2 =
      some (.mandatoryTagMissing "62") :=
  ⟨rfl, rfl⟩

/-- C3 (amended): whenever `ParseSelectData` reports an error, the
accompanying result is either nil (BER-decode and flat-mapping failures) or
the freshly allocated empty `FileControlInfo` (mandatory-template failures).
No partially-populated object escapes, but the mandatory path does return a
non-nil empty object alongside its error. -/
theorem C3_error_result_amended (data : List Nat) (p2 : Nat)
    (r : Option FileControlInfo) (e : SelectErr)
    (h : ParseSelectData data p2 = (r, some e)) :
    r = none ∨ r = some emptyFci := by
  unfold ParseSelectData at h
  by_cases h0 : data = []
  · rw [if_pos h0] at h
    exact absurd (congrArg Prod.snd h) (by simp)
  rw [if_neg h0] at h
  by_cases h1 : 0xC0 ≤ data.headD 0
  · rw [if_pos h1] at h
    exact absurd (congrArg Prod.snd h) (by simp)
  rw [if_neg h1] at h
  rcases hdec : bertlvDecode data with e2 | packets <;> simp only [hdec] at h
  · exact Or.inl (congrArg Prod.fst h).symm
  by_cases hc1 : bits.GetRange p2 4 3 = 1
  · rw [if_pos hc1] at h
    rcases hm : unmarshalIfTagExists packets "62" fcpFields emptyFcp with ⟨st, found⟩
    rw [hm] at h
    cases found <;> dsimp only at h
    · exact Or.inr (congrArg Prod.fst h).symm
    · exact absurd (congrArg Prod.snd h) (by simp)
  rw [if_neg hc1] at h
  by_cases hc2 : bits.GetRange p2 4 3 = 2
  · rw [if_pos hc2] at h
    rcases hm : unmarshalIfTagExists packets "64" fmdFields emptyFmd with ⟨st, found⟩
    rw [hm] at h
    cases found <;> dsimp only at h
    · exact Or.inr (congrArg Prod.fst h).symm
    · exact absurd (congrArg Prod.snd h) (by simp)
  rw [if_neg hc2] at h
  by_cases hc0 : bits.GetRange p2 4 3 = 0
  · rw [if_pos hc0] at h
    by_cases hff : ((unmarshalIfTagExists (workingPacketsOf packets) "62" fcpFields emptyFcp).2
        || (unmarshalIfTagExists (workingPacketsOf packets) "64" fmdFields emptyFmd).2) = true
    · rw [if_pos hff] at h
      exact absurd (congrArg Prod.snd h) (by simp)
    · rw [if_neg hff] at h
      rcases hu1 : UnmarshalFromPackets2 (workingPacketsOf packets) fcpFields true
          emptyFcp.1 emptyFcp.2 with e3 | r1
      · simp only [hu1] at h
        exact Or.inl (congrArg Prod.fst h).symm
      · rcases r1 with ⟨fcpVals, fcpUnknown⟩
        simp only [hu1] at h
        rcases hu2 : UnmarshalFromPackets2 fcpUnknown fmdFields true
            emptyFmd.1 emptyFmd.2 with e4 | r2
        · simp only [hu2] at h
          exact Or.inl (congrArg Prod.fst h).symm
        · rcases r2 with ⟨fmdVals, fmdUnknown⟩
          simp only [hu2] at h
          exact absurd (congrArg Prod.snd h) (by simp)
  · rw [if_neg hc0] at h
    exact absurd (congrArg Prod.snd h) (by simp)

/-- Witness for C3_error_result_amended at the FMD-wrapped input under
FCP-mandatory control. -/
theorem C3_error_result_amended_witness :
    (some emptyFci : Option FileControlInfo) = none ∨
      (some emptyFci : Option FileControlInfo) = some emptyFci :=
  C3_error_result_amended [0x64, 0x05, 0x50, 0x03, 0x58, 0x59, 0x5A] 0x04
    (some emptyFci) (.mandatoryTagMissing "62") rfl

/-! ## C8: FCP-mandatory control -/

/-- C8: with control = FCP-mandatory (P2 bits 4-3 = 01), on any decodable
non-proprietary response: if no top-level node has tag 62 the call fails with
the mandatory-tag-missing error (for tag 62); if a top-level 62 node exists,
its children are mapped onto the FCP schema and become the result's FCP. -/
theorem C8_fcp_mandatory (data : List Nat) (p2 : Nat) (packets : List TLV)
    (hne : ¬ data = []) (hprop : data.headD 0 < 0xC0)
    (hdec : bertlvDecode data = .ok packets)
    (hctl : bits.GetRange p2 4 3 = 1) :
    ((∀ p ∈ packets, ¬ upperStr p.tag = "62") →
      ParseSelectData data p2 = (some emptyFci, some (.mandatoryTagMissing "62"))) ∧
    (∀ p st, findFirstTag packets "62" = some p →
      UnmarshalFromPackets2 p.children fcpFields true emptyFcp.1 emptyFcp.2 = .ok st →
      ParseSelectData data p2 = (some { emptyFci with fcp := some st }, none)) := by
  constructor
  · intro hnone
    have hfind : findFirstTag packets "62" = none := by
      unfold findFirstTag
      rw [show upperStr "62" = "62" from rfl]
      apply List.find?_eq_none.mpr
      intro p hp
      simpa using hnone p hp
    unfold ParseSelectData
    rw [if_neg hne, if_neg (show ¬ (0xC0 ≤ data.headD 0) by omega)]
    simp only [hdec]
    rw [if_pos hctl]
    unfold unmarshalIfTagExists
    simp only [hfind]
  · intro p st hfind hok
    unfold ParseSelectData
    rw [if_neg hne, if_neg (show ¬ (0xC0 ≤ data.headD 0) by omega)]
    simp only [hdec]
    rw [if_pos hctl]
    unfold unmarshalIfTagExists
    simp only [hfind, hok]

/-- Witness for C8_fcp_mandatory: a response wrapped only in an FMD (64)
template, requested with FCP-mandatory control, fails with the
mandatory-tag-missing error for tag 62 (the claim's mandatory-mismatch
scenario). -/
theorem C8_fcp_mandatory_witness :
    ParseSelectData [0x64, 0x03, 0x50, 0x01, 0x41] 0x04 =
      (some emptyFci, some (.mandatoryTagMissing "62")) := by
  have h := (C8_fcp_mandatory [0x64, 0x03, 0x50, 0x01, 0x41] 0x04
      [TLV.mk "64" [] [TLV.mk "50" [0x41] []]]
      (by decide) (by decide) rfl rfl).1
  exact h (by decide)

theorem insertReplace_notmem :
    ∀ (acc : List (String × TLV)) (k : String) (p : TLV),
      k ∉ acc.map Prod.fst → insertReplace acc k p = acc ++ [(k, p)] := by
  intro acc
  induction acc with
  | nil => intro k p _; rfl
  | cons kp rest ih =>
    intro k p hk
    rcases kp with ⟨k0, p0⟩
    simp only [List.map_cons, List.mem_cons] at hk
    push_neg at hk
    simp only [insertReplace, if_neg (Ne.symm hk.1)]
    rw [ih k p hk.2]
    rfl

theorem tagMapOf_eq_map :
    ∀ (packets : List TLV),
      (packets.map fun p => upperStr p.tag).Nodup →
      tagMapOf packets = packets.map fun p => (upperStr p.tag, p) := by
  have haux : ∀ (packets : List TLV) (acc : List (String × TLV)),
      (∀ p ∈ packets, upperStr p.tag ∉ acc.map Prod.fst) →
      (packets.map fun p => upperStr p.tag).Nodup →
      packets.foldl (fun m p => insertReplace m (upperStr p.tag) p) acc =
        acc ++ packets.map fun p => (upperStr p.tag, p) := by
    intro packets
    induction packets with
    | nil => intro acc _ _; simp
    | cons p rest ih =>
      intro acc hdisj hnd
      have hnd2 : (rest.map fun q => upperStr q.tag).Nodup :=
        (List.nodup_cons.mp (by simpa using hnd)).2
      have hp : upperStr p.tag ∉ rest.map fun q => upperStr q.tag :=
        (List.nodup_cons.mp (by simpa using hnd)).1
      have hdisj2 : ∀ q ∈ rest,
          upperStr q.tag ∉ (acc ++ [(upperStr p.tag, p)]).map Prod.fst := by
        intro q hq
        simp only [List.map_append, List.mem_append]
        push_neg
        refine ⟨hdisj q (List.mem_cons_of_mem _ hq), ?_⟩
        simp only [List.map_cons, List.map_nil, List.mem_singleton]
        intro heq
        exact hp (heq ▸ List.mem_map_of_mem _ hq)
      simp only [List.foldl_cons]
      rw [insertReplace_notmem acc _ p (hdisj p (by simp))]
      rw [ih (acc ++ [(upperStr p.tag, p)]) hdisj2 hnd2]
      simp

  intro packets hnd
  simpa using haux packets [] (by simp) hnd

theorem lookup_map_upper (tagU : String) :
    ∀ (packets : List TLV),
      List.lookup tagU (packets.map fun p => (upperStr p.tag, p)) =
        packets.find? fun p => upperStr p.tag == tagU := by
  intro packets
  induction packets with
  | nil => rfl
  | cons p rest ih =>
    simp only [List.map_cons, List.lookup_cons, List.find?_cons]
    by_cases hm : upperStr p.tag = tagU
    · rw [hm]
      simp
    · have h1 : (tagU == upperStr p.tag) = false := by
        simp [Ne.symm hm]
      have h2 : (upperStr p.tag == tagU) = false := by
        simp [hm]
      rw [h1, h2]
      exact ih

theorem matchingPackets_eq_nil (tagU : String) (packets : List TLV)
    (h : ∀ q ∈ packets, ¬ upperStr q.tag = tagU) :
    matchingPackets tagU packets = [] := by
  simp only [matchingPackets, List.filter_eq_nil_iff]
  simpa using h

theorem find?_eq_getLast?_matching (tagU : String) :
    ∀ (packets : List TLV),
      (packets.map fun p => upperStr p.tag).Nodup →
      (packets.find? fun p => upperStr p.tag == tagU) =
        (matchingPackets tagU packets).getLast? := by
  intro packets
  induction packets with
  | nil => intro _; rfl
  | cons p rest ih =>
    intro hnd
    have hnd2 : (rest.map fun q => upperStr q.tag).Nodup :=
      (List.nodup_cons.mp (by simpa using hnd)).2
    have hp : upperStr p.tag ∉ rest.map fun q => upperStr q.tag :=
      (List.nodup_cons.mp (by simpa using hnd)).1
    simp only [List.find?_cons]
    by_cases hm : upperStr p.tag = tagU
    · have hcond : (upperStr p.tag == tagU) = true := by simp [hm]
      rw [hcond, matchingPackets_cons_pos _ hm]
      have hrest : matchingPackets tagU rest = [] := by
        apply matchingPackets_eq_nil
        intro q hq hq2
        have hmem : upperStr q.tag ∈ rest.map fun r => upperStr r.tag :=
          List.mem_map_of_mem _ hq
        rw [hq2, ← hm] at hmem
        exact hp hmem
      rw [hrest]
      rfl
    · have hcond : (upperStr p.tag == tagU) = false := by simp [hm]
      rw [hcond, matchingPackets_cons_neg _ hm]
      exact ih hnd2

theorem getPacketRawData_leaf (p : TLV) (h : p.children.isEmpty = true) :
    getPacketRawData p = p.value := by
  rcases p with ⟨t, v, c⟩
  cases c with
  | nil => rfl
  | cons x xs => simp [TLV.children, List.isEmpty] at h

theorem leafAssign_cur_irrel (p : TLV) (k : FieldKind) (hk : isLeafKind k = true)
    (c1 c2 : Option FieldVal) : leafAssign p k c1 = leafAssign p k c2 := by
  cases k with
  | bytes => rfl
  | hexStr => rfl
  | nested fs hu => simp [isLeafKind] at hk
  | nestedList fs hu => simp [isLeafKind] at hk

theorem mapPacketToFieldF2_leaf (fuel : Nat) (p : TLV) (k : FieldKind)
    (cur : Option FieldVal) (v : FieldVal)
    (hk : isLeafKind k = true) (hleaf : p.children.isEmpty = true)
    (h : mapPacketToFieldF2 fuel p k cur = .ok v) :
    some v = leafAssign p k cur := by
  cases fuel with
  | zero => exact absurd h (by simp [mapPacketToFieldF2])
  | succ f =>
    cases k with
    | nested fs hu => simp [isLeafKind] at hk
    | nestedList fs hu => simp [isLeafKind] at hk
    | bytes =>
      simp only [mapPacketToFieldF2] at h
      cases f with
      | zero => exact absurd h (by simp [decodeToValueF2])
      | succ f2 =>
        simp only [decodeToValueF2] at h
        cases h
        rw [leafAssign, getPacketRawData_leaf p hleaf]
    | hexStr =>
      simp only [mapPacketToFieldF2] at h
      cases f with
      | zero => exact absurd h (by simp [decodeToValueF2])
      | succ f2 =>
        simp only [decodeToValueF2] at h
        cases h
        rfl

theorem fieldPassF2_leaf_spec (tagU : String) (k : FieldKind) (hk : isLeafKind k = true) :
    ∀ (pcs : List (TLV × Bool)) (fuel : Nat) (cur : Option FieldVal) v2 pcs2,
      (∀ pc ∈ pcs, (pc : TLV × Bool).1.children.isEmpty = true) →
      fieldPassF2 fuel tagU k pcs cur = .ok (v2, pcs2) →
      (v2 =
        (match (matchingPackets tagU (pcs.map Prod.fst)).getLast? with
         | none => cur
         | some p => leafAssign p k cur) ∧
       pcs2 = pcs.map fun pc => (pc.1, pc.2 || (upperStr pc.1.tag == tagU))) := by
  intro pcs
  induction pcs with
  | nil =>
    intro fuel cur v2 pcs2 _ h
    cases fuel with
    | zero => exact absurd h (by simp [fieldPassF2])
    | succ f =>
      simp only [fieldPassF2] at h
      cases h
      exact ⟨rfl, rfl⟩
  | cons pc rest ih =>
    intro fuel cur v2 pcs2 hleaf h
    cases fuel with
    | zero => exact absurd h (by simp [fieldPassF2])
    | succ f =>
      rcases pc with ⟨p, c⟩
      have hpl : p.children.isEmpty = true := hleaf (p, c) (by simp)
      have hrl : ∀ pc ∈ rest, (pc : TLV × Bool).1.children.isEmpty = true :=
        fun pc hpc => hleaf pc (List.mem_cons_of_mem _ hpc)
      simp only [fieldPassF2] at h
      by_cases hm : upperStr p.tag = tagU
      · rw [if_pos hm] at h
        rcases hmp : mapPacketToFieldF2 f p k cur with e | v
        · rw [hmp, exceptBind_error] at h
          exact absurd h (by simp)
        · rw [hmp, exceptBind_ok] at h
          rcases hrec : fieldPassF2 f tagU k rest (some v) with e2 | ⟨v3, rest2⟩
          · rw [hrec, exceptBind_error] at h
            exact absurd h (by simp)
          · rw [hrec, exceptBind_ok] at h
            cases h
            have hv : some v = leafAssign p k cur :=
              mapPacketToFieldF2_leaf f p k cur v hk hpl hmp
            obtain ⟨ihv, ihf⟩ := ih f (some v) v3 rest2 hrl hrec
            constructor
            · rw [List.map_cons, matchingPackets_cons_pos _ hm]
              rcases hms : matchingPackets tagU (rest.map Prod.fst) with _ | ⟨q, ms⟩
              · rw [hms] at ihv
                simp only [List.getLast?_nil] at ihv
                simp only [List.getLast?_singleton]
                rw [ihv]
                exact hv
              · rw [hms] at ihv
                rw [List.getLast?_cons_cons]
                rcases hlast : (q :: ms).getLast? with _ | q2
                · exact absurd hlast (by simp [List.getLast?_eq_none_iff])
                · rw [hlast] at ihv
                  rw [ihv]
                  exact leafAssign_cur_irrel q2 k hk (some v) cur
            · simp only [List.map_cons, ihf]
              have : (upperStr p.tag == tagU) = true := by simp [hm]
              rw [this]
              simp
      · rw [if_neg hm] at h
        rcases hrec : fieldPassF2 f tagU k rest cur with e2 | ⟨v3, rest2⟩
        · rw [hrec, exceptBind_error] at h
          exact absurd h (by simp)
        · rw [hrec, exceptBind_ok] at h
          cases h
          obtain ⟨ihv, ihf⟩ := ih f cur v3 rest2 hrl hrec
          constructor
          · rw [List.map_cons, matchingPackets_cons_neg _ hm]
            exact ihv
          · simp only [List.map_cons, ihf]
            have : (upperStr p.tag == tagU) = false := by simp [hm]
            rw [this]
            simp

theorem strBeq_comm (a b : String) : (a == b) = (b == a) := by
  by_cases h : a = b
  · simp [h]
  · simp [h, Ne.symm h]

theorem fieldsPassF2_leaf_spec :
    ∀ (fields : SchemaFields) (pcs : List (TLV × Bool)) (fuel : Nat)
      (vals : List (Option FieldVal)) vals2 pcsN,
      fields.all (fun tk => isLeafKind tk.2) = true →
      (∀ pc ∈ pcs, (pc : TLV × Bool).1.children.isEmpty = true) →
      vals.length = fields.length →
      fieldsPassF2 fuel fields pcs vals = .ok (vals2, pcsN) →
      (vals2 = flatVals fields (pcs.map Prod.fst) vals ∧
       pcsN = pcs.map fun pc => (pc.1, pc.2 || anyFieldMatches fields pc.1)) := by
  intro fields
  induction fields with
  | nil =>
    intro pcs fuel vals vals2 pcsN _ _ hlen h
    cases fuel with
    | zero => exact absurd h (by simp [fieldsPassF2])
    | succ f =>
      simp only [fieldsPassF2] at h
      cases h
      refine ⟨rfl, ?_⟩
      simp [anyFieldMatches]
  | cons tk fs ih =>
    intro pcs fuel vals vals2 pcsN hflat hleaf hlen h
    cases fuel with
    | zero => exact absurd h (by simp [fieldsPassF2])
    | succ f =>
      rcases tk with ⟨tag, k⟩
      cases vals with
      | nil => simp at hlen
      | cons v vs =>
        have hk : isLeafKind k = true := by
          have := hflat
          simp only [List.all_cons, Bool.and_eq_true] at this
          exact this.1
        have hflat2 : fs.all (fun tk => isLeafKind tk.2) = true := by
          have := hflat
          simp only [List.all_cons, Bool.and_eq_true] at this
          exact this.2
        simp only [fieldsPassF2] at h
        rcases hfp : fieldPassF2 f (upperStr tag) k pcs v with e | ⟨v2a, pcs2⟩
        · rw [hfp, exceptBind_error] at h
          exact absurd h (by simp)
        · rw [hfp, exceptBind_ok] at h
          rcases hfs : fieldsPassF2 f fs pcs2 vs with e2 | ⟨vs2, pcs3⟩
          · rw [hfs, exceptBind_error] at h
            exact absurd h (by simp)
          · rw [hfs, exceptBind_ok] at h
            cases h
            obtain ⟨hv2a, hpcs2⟩ := fieldPassF2_leaf_spec (upperStr tag) k hk pcs f v
              v2a pcs2 hleaf hfp
            have hleaf2 : ∀ pc ∈ pcs2, (pc : TLV × Bool).1.children.isEmpty = true := by
              intro pc hpc
              rw [hpcs2] at hpc
              obtain ⟨pc0, hpc0, rfl⟩ := List.mem_map.mp hpc
              exact hleaf pc0 hpc0
            have hlen2 : vs.length = fs.length := by simpa using hlen
            obtain ⟨hvs2, hpcs3⟩ := ih pcs2 f vs vs2 pcs3 hflat2 hleaf2 hlen2 hfs
            have hfst2 : pcs2.map Prod.fst = pcs.map Prod.fst := by
              rw [hpcs2, List.map_map]
              rfl
            constructor
            · simp only [flatVals]
              rw [hv2a, hvs2, hfst2]
            · rw [hpcs3, hpcs2, List.map_map]
              apply List.map_congr_left
              intro pc _
              simp only [Function.comp]
              have : anyFieldMatches ((tag, k) :: fs) pc.1 =
                  ((upperStr pc.1.tag == upperStr tag) || anyFieldMatches fs pc.1) := by
                simp only [anyFieldMatches, List.any_cons]
                rw [strBeq_comm]
              rw [this, Bool.or_assoc]

theorem unmarshalFP2_leaf_spec (fuel : Nat) (packets : List TLV)
    (fields : SchemaFields) (hu : Bool) (vals : List (Option FieldVal))
    (unk : List TLV) (r : List (Option FieldVal) × List TLV)
    (hflat : fields.all (fun tk => isLeafKind tk.2) = true)
    (hleaf : ∀ p ∈ packets, (p : TLV).children.isEmpty = true)
    (hlen : vals.length = fields.length)
    (h : unmarshalFP2 fuel packets fields hu vals unk = .ok r) :
    r = (flatVals fields packets vals,
         if hu then
           (if (flatUnknown fields packets).isEmpty then unk
            else flatUnknown fields packets)
         else unk) := by
  cases fuel with
  | zero => exact absurd h (by simp [unmarshalFP2])
  | succ f =>
    simp only [unmarshalFP2] at h
    rcases hfp : fieldsPassF2 f fields (packets.map fun p => (p, false)) vals
        with e | ⟨vals2, pcsN⟩
    · rw [hfp, exceptBind_error] at h
      exact absurd h (by simp)
    · rw [hfp, exceptBind_ok] at h
      have hleafP : ∀ pc ∈ (packets.map fun p => (p, false)),
          (pc : TLV × Bool).1.children.isEmpty = true := by
        intro pc hpc
        obtain ⟨p0, hp0, rfl⟩ := List.mem_map.mp hpc
        exact hleaf p0 hp0
      obtain ⟨hvals2, hpcsN⟩ := fieldsPassF2_leaf_spec fields _ f vals vals2 pcsN
        hflat hleafP hlen hfp
      have hfst : (packets.map fun p => (p, false)).map Prod.fst = packets := by
        rw [List.map_map]
        exact List.map_id packets
      rw [hfst] at hvals2
      have hgen : ∀ (l : List TLV),
          (((l.map fun p => (p, anyFieldMatches fields p)).filter
              fun pc => !pc.2).map fun pc => pc.1) =
            l.filter fun p => !(anyFieldMatches fields p) := by
        intro l
        induction l with
        | nil => rfl
        | cons p rest ihl =>
          by_cases hm : anyFieldMatches fields p = true
          · simp only [List.map_cons, List.filter_cons, hm]
            simpa using ihl
          · have hf : anyFieldMatches fields p = false := by
              simpa using hm
            simp [List.filter_cons, hf, ihl]
      have hcomp : pcsN = packets.map fun p => (p, anyFieldMatches fields p) := by
        rw [hpcsN, List.map_map]
        apply List.map_congr_left
        intro p _
        simp
      have hleft : ((pcsN.filter fun pc => !pc.2).map fun pc => pc.1) =
          flatUnknown fields packets := by
        rw [hcomp, hgen]
        rfl
      dsimp only at h
      rw [hleft] at h
      cases hu with
      | false =>
        simp only [Bool.false_eq_true, if_false] at h
        cases h
        simp [hvals2]
      | true =>
        simp only [if_true] at h
        by_cases hemp : (flatUnknown fields packets).isEmpty = true
        · rw [if_pos hemp] at h
          cases h
          simp [hvals2, hemp]
        · rw [if_neg hemp] at h
          cases h
          simp [hvals2, hemp]

theorem oldFieldAssignF_leaf (fuel : Nat) (p : TLV) (k : FieldKind)
    (cur : Option FieldVal) (w : Option FieldVal)
    (hk : isLeafKind k = true) (hlp : isLeafPacket p = true)
    (h : oldFieldAssignF fuel p k cur = .ok w) : w = leafAssign p k cur := by
  cases fuel with
  | zero => exact absurd h (by simp [oldFieldAssignF])
  | succ f =>
    cases k with
    | nested fs hu => simp [isLeafKind] at hk
    | nestedList fs hu => simp [isLeafKind] at hk
    | hexStr =>
      simp only [oldFieldAssignF] at h
      cases h
      rfl
    | bytes =>
      have hval : ¬ p.value.isEmpty = true := by
        simp only [isLeafPacket, Bool.and_eq_true, Bool.not_eq_true'] at hlp
        simp [hlp.2]
      simp only [oldFieldAssignF] at h
      rw [if_pos hval] at h
      cases h
      rfl

theorem fieldsPassF1_leaf_spec :
    ∀ (fields : SchemaFields) (fuel : Nat) (packets : List TLV)
      (vals : List (Option FieldVal)) (cons0 : List String) vals2 consN,
      fields.all (fun tk => isLeafKind tk.2) = true →
      (∀ p ∈ packets, isLeafPacket p = true) →
      (packets.map fun p => upperStr p.tag).Nodup →
      vals.length = fields.length →
      fieldsPassF1 fuel fields (packets.map fun p => (upperStr p.tag, p)) vals cons0 =
        .ok (vals2, consN) →
      (vals2 = flatVals fields packets vals ∧
       consN = cons0 ++ consumedSpec fields packets) := by
  intro fields
  induction fields with
  | nil =>
    intro fuel packets vals cons0 vals2 consN _ _ _ hlen h
    cases fuel with
    | zero => exact absurd h (by simp [fieldsPassF1])
    | succ f =>
      simp only [fieldsPassF1] at h
      cases h
      exact ⟨rfl, by simp [consumedSpec]⟩
  | cons tk fs ih =>
    intro fuel packets vals cons0 vals2 consN hflat hleafP hnodup hlen h
    cases fuel with
    | zero => exact absurd h (by simp [fieldsPassF1])
    | succ f =>
      rcases tk with ⟨tag, k⟩
      cases vals with
      | nil => simp at hlen
      | cons v vs =>
        have hk : isLeafKind k = true := by
          have := hflat
          simp only [List.all_cons, Bool.and_eq_true] at this
          exact this.1
        have hflat2 : fs.all (fun tk => isLeafKind tk.2) = true := by
          have := hflat
          simp only [List.all_cons, Bool.and_eq_true] at this
          exact this.2
        have hlen2 : vs.length = fs.length := by simpa using hlen
        simp only [fieldsPassF1] at h
        rw [lookup_map_upper (upperStr tag) packets] at h
        rcases hf : packets.find? fun p => upperStr p.tag == upperStr tag with _ | p
        · simp only [hf] at h
          rcases hfs : fieldsPassF1 f fs (packets.map fun p => (upperStr p.tag, p)) vs cons0
            with e | ⟨vs2, c2⟩
          · rw [hfs, exceptBind_error] at h
            exact absurd h (by simp)
          · rw [hfs, exceptBind_ok] at h
            cases h
            obtain ⟨hvs2, hc2⟩ := ih f packets vs cons0 vs2 c2 hflat2 hleafP hnodup hlen2 hfs
            constructor
            · simp only [flatVals]
              rw [← find?_eq_getLast?_matching (upperStr tag) packets hnodup, hf, hvs2]
            · rw [hc2]
              simp only [consumedSpec, List.filter_cons]
              rw [hf]
              simp
        · simp only [hf] at h
          rcases hoa : oldFieldAssignF f p k v with e | w
          · rw [hoa, exceptBind_error] at h
            exact absurd h (by simp)
          · rw [hoa, exceptBind_ok] at h
            rcases hfs : fieldsPassF1 f fs (packets.map fun p => (upperStr p.tag, p)) vs
                (cons0 ++ [upperStr tag]) with e | ⟨vs2, c2⟩
            · rw [hfs, exceptBind_error] at h
              exact absurd h (by simp)
            · rw [hfs, exceptBind_ok] at h
              cases h
              have hp : p ∈ packets := List.mem_of_find?_eq_some hf
              have hw : w = leafAssign p k v :=
                oldFieldAssignF_leaf f p k v w hk (hleafP p hp) hoa
              obtain ⟨hvs2, hc2⟩ := ih f packets vs (cons0 ++ [upperStr tag]) vs2 c2
                hflat2 hleafP hnodup hlen2 hfs
              constructor
              · simp only [flatVals]
                rw [← find?_eq_getLast?_matching (upperStr tag) packets hnodup, hf, hvs2, hw]
              · rw [hc2]
                simp only [consumedSpec, List.filter_cons]
                rw [hf]
                simp

theorem consumedSpec_contains (packets : List TLV) (p : TLV) (hp : p ∈ packets) :
    ∀ (fields : SchemaFields),
      (consumedSpec fields packets).contains (upperStr p.tag) =
        anyFieldMatches fields p := by
  intro fields
  induction fields with
  | nil => rfl
  | cons tk fs ih =>
    rcases tk with ⟨tag, k⟩
    by_cases hm : upperStr tag = upperStr p.tag
    · have hsome : (packets.find? fun q => upperStr q.tag == upperStr tag).isSome = true := by
        rw [List.find?_isSome]
        exact ⟨p, hp, by simp [hm]⟩
      simp only [consumedSpec, List.filter_cons, hsome, if_pos, List.map_cons,
        List.contains_cons, anyFieldMatches, List.any_cons]
      rw [hm]
      simp
    · have hne : (upperStr p.tag == upperStr tag) = false := by
        simp [Ne.symm hm]
      have hne2 : (upperStr tag == upperStr p.tag) = false := by
        simp [hm]
      rcases hsome : (packets.find? fun q => upperStr q.tag == upperStr tag).isSome with _ | _
      · simp only [consumedSpec, List.filter_cons, hsome, anyFieldMatches, List.any_cons, hne2]
        simp only [Bool.false_or]
        exact ih
      · simp only [consumedSpec, List.filter_cons, hsome, if_pos, List.map_cons,
          List.contains_cons, hne, anyFieldMatches, List.any_cons, hne2]
        simp only [Bool.false_or]
        exact ih

/-- Two lists that are permutations of one another are empty together. -/
theorem perm_isEmpty_eq {α : Type} {l1 l2 : List α} (h : l1.Perm l2) :
    l1.isEmpty = l2.isEmpty := by
  have hl := h.length_eq
  cases l1 <;> cases l2 <;> simp_all

/-- Association-list lookup depends only on the content of the list when its
keys are pairwise distinct: any enumeration order of the Go map yields the
same lookups. -/
theorem lookup_perm :
    ∀ {l1 l2 : List (String × TLV)}, l1.Perm l2 →
      (l1.map Prod.fst).Nodup → ∀ key, l1.lookup key = l2.lookup key := by
  intro l1 l2 h
  induction h with
  | nil => intro _ _; rfl
  | cons x hp ih =>
    intro hnd key
    rcases x with ⟨k, v⟩
    simp only [List.map_cons, List.nodup_cons] at hnd
    by_cases hk : (key == k) = true
    · simp [List.lookup, hk]
    · have hk2 : (key == k) = false := by simpa using hk
      simp [List.lookup, hk2, ih hnd.2 key]
  | swap x y l =>
    intro hnd key
    rcases x with ⟨kx, vx⟩
    rcases y with ⟨ky, vy⟩
    simp only [List.map_cons, List.nodup_cons, List.mem_cons] at hnd
    by_cases hky : (key == ky) = true
    · by_cases hkx : (key == kx) = true
      · exact absurd (Or.inl ((eq_of_beq hky).symm.trans (eq_of_beq hkx))) hnd.1
      · have hkx2 : (key == kx) = false := by simpa using hkx
        simp [List.lookup, hky, hkx2]
    · have hky2 : (key == ky) = false := by simpa using hky
      by_cases hkx : (key == kx) = true
      · simp [List.lookup, hky2, hkx]
      · have hkx2 : (key == kx) = false := by simpa using hkx
        simp [List.lookup, hky2, hkx2]
  | trans h1 h2 ih1 ih2 =>
    intro hnd key
    have hnd2 := ((h1.map Prod.fst).nodup_iff).mp hnd
    rw [ih1 hnd key, ih2 hnd2 key]

/-- The field loop of the older engine reads the tag map only through
lookups, so any two maps with the same lookups drive it identically. -/
theorem fieldsPassF1_lookup_congr (m1 m2 : List (String × TLV))
    (hm : ∀ key, m1.lookup key = m2.lookup key) :
    ∀ (fuel : Nat) (fields : SchemaFields) (vals : List (Option FieldVal))
      (cons : List String),
      fieldsPassF1 fuel fields m1 vals cons = fieldsPassF1 fuel fields m2 vals cons := by
  intro fuel
  induction fuel with
  | zero => intro fields vals cons; rfl
  | succ f ih =>
    intro fields vals cons
    rcases fields with _ | ⟨⟨tag, k⟩, fs⟩
    · rfl
    · rcases vals with _ | ⟨v, vs⟩
      · rfl
      · simp only [fieldsPassF1]
        rw [hm (upperStr tag)]
        rcases h2 : m2.lookup (upperStr tag) with _ | p
        · rw [ih fs vs cons]
        · rw [ih fs vs (cons ++ [upperStr tag])]

theorem unmarshalFP1_leaf_spec (fuel : Nat) (iter : List (String × TLV))
    (packets : List TLV)
    (fields : SchemaFields) (hu : Bool) (vals : List (Option FieldVal))
    (unk : List TLV) (r : List (Option FieldVal) × List TLV)
    (hflat : fields.all (fun tk => isLeafKind tk.2) = true)
    (hleafP : ∀ p ∈ packets, isLeafPacket p = true)
    (hnodup : (packets.map fun p => upperStr p.tag).Nodup)
    (hlen : vals.length = fields.length)
    (hiter : iter.Perm (tagMapOf packets))
    (h : unmarshalFP1 fuel iter fields hu vals unk = .ok r) :
    r.1 = flatVals fields packets vals ∧
    r.2.Perm (if hu then
                (if (flatUnknown fields packets).isEmpty then unk
                 else flatUnknown fields packets)
              else unk) := by
  rw [tagMapOf_eq_map packets hnodup] at hiter
  have hndcanon : (((packets.map fun p => (upperStr p.tag, p)).map Prod.fst)).Nodup := by
    rw [List.map_map]
    exact hnodup
  have hnditer : (iter.map Prod.fst).Nodup :=
    ((hiter.map Prod.fst).nodup_iff).mpr hndcanon
  have hlk : ∀ key, iter.lookup key =
      (packets.map fun p => (upperStr p.tag, p)).lookup key :=
    lookup_perm hiter hnditer
  cases fuel with
  | zero => exact absurd h (by simp [unmarshalFP1])
  | succ f =>
    simp only [unmarshalFP1] at h
    rw [fieldsPassF1_lookup_congr iter (packets.map fun p => (upperStr p.tag, p)) hlk] at h
    rcases hfp : fieldsPassF1 f fields (packets.map fun p => (upperStr p.tag, p)) vals []
        with e | ⟨vals2, consN⟩
    · rw [hfp, exceptBind_error] at h
      exact absurd h (by simp)
    · rw [hfp, exceptBind_ok] at h
      obtain ⟨hvals2, hconsN⟩ := fieldsPassF1_leaf_spec fields f packets vals [] vals2 consN
        hflat hleafP hnodup hlen hfp
      simp only [List.nil_append] at hconsN
      have hgen : ∀ (l : List TLV), (∀ q ∈ l, q ∈ packets) →
          (((l.map fun p => (upperStr p.tag, p)).filter
              fun kp => !(consN.contains kp.1)).map fun kp => kp.2) =
            l.filter fun p => !(anyFieldMatches fields p) := by
        intro l
        induction l with
        | nil => intro _; rfl
        | cons q rest ihl =>
          intro hmem
          have hq : q ∈ packets := hmem q (by simp)
          have hcc : consN.contains (upperStr q.tag) = anyFieldMatches fields q := by
            rw [hconsN]
            exact consumedSpec_contains packets q hq fields
          have hrest := ihl fun x hx => hmem x (List.mem_cons_of_mem _ hx)
          by_cases hh : anyFieldMatches fields q = true
          · simp only [List.map_cons, List.filter_cons, hcc, hh]
            simpa using hrest
          · have hh2 : anyFieldMatches fields q = false := by simpa using hh
            simp only [List.map_cons, List.filter_cons, hcc, hh2]
            simp only [Bool.not_false, if_pos, List.map_cons]
            rw [hrest]
      have hleft : (((packets.map fun p => (upperStr p.tag, p)).filter
          fun kp => !(consN.contains kp.1)).map fun kp => kp.2) =
          flatUnknown fields packets :=
        hgen packets (fun q hq => hq)
      have hleftPerm : ((iter.filter fun kp => !(consN.contains kp.1)).map
          fun kp => kp.2).Perm (flatUnknown fields packets) := by
        rw [← hleft]
        exact (hiter.filter _).map _
      have hempEq : ((iter.filter fun kp => !(consN.contains kp.1)).map
          fun kp => kp.2).isEmpty = (flatUnknown fields packets).isEmpty :=
        perm_isEmpty_eq hleftPerm
      dsimp only at h
      rw [hempEq] at h
      cases hu with
      | false =>
        simp only [Bool.false_eq_true, if_false] at h
        cases h
        exact ⟨hvals2, List.Perm.refl unk⟩
      | true =>
        simp only [if_true] at h
        by_cases hemp : (flatUnknown fields packets).isEmpty = true
        · rw [if_pos hemp] at h
          cases h
          rw [if_pos hemp]
          exact ⟨hvals2, List.Perm.refl unk⟩
        · rw [if_neg hemp] at h
          cases h
          rw [if_neg hemp]
          exact ⟨hvals2, hleftPerm⟩

/-- C10 counterexample: on two primitive packets sharing tag 84 with an empty
schema and unknown tracking on, the older engine's tag map collapses the
duplicate to a single entry — so EVERY iteration order of that map (a
singleton list has exactly one enumeration) yields an unknown list holding
only the later packet — while the current engine keeps both.  The outputs
differ even as multisets (not merely in order), so the disagreement does not
depend on the randomized map iteration order. -/
theorem C10_counterexample :
    tagMapOf [TLV.mk "84" [1] [], TLV.mk "84" [2] []] =
      [("84", TLV.mk "84" [2] [])] ∧
    UnmarshalFromPackets1 [("84", TLV.mk "84" [2] [])] [] true [] [] =
      .ok ([], [TLV.mk "84" [2] []]) ∧
    UnmarshalFromPackets2 [TLV.mk "84" [1] [], TLV.mk "84" [2] []] [] true [] [] =
      .ok ([], [TLV.mk "84" [1] [], TLV.mk "84" [2] []]) ∧
    ¬ ([TLV.mk "84" [2] []] : List TLV).Perm
        [TLV.mk "84" [1] [], TLV.mk "84" [2] []] :=
  ⟨rfl, rfl, rfl, fun h => absurd h.length_eq (by decide)⟩

/-- C10 (amended): the two generations of `UnmarshalFromPackets` agree on any
flat schema (bytes / hex-string fields only) applied to primitive packets
with nonempty values and pairwise case-insensitively distinct tags, whenever
both succeed: for EVERY iteration order of the older engine's tag map (any
permutation of its content), both return exactly the same field assignments,
and unknown lists that agree up to permutation — the older engine's leftover
order follows the randomized map iteration and is not guaranteed. -/
theorem C10_flat_agreement_amended (packets : List TLV) (fields : SchemaFields)
    (hu : Bool) (vals : List (Option FieldVal)) (unk : List TLV)
    (iter : List (String × TLV)) (r1 r2 : List (Option FieldVal) × List TLV)
    (hflat : fields.all (fun tk => isLeafKind tk.2) = true)
    (hleafP : ∀ p ∈ packets, isLeafPacket p = true)
    (hnodup : (packets.map fun p => upperStr p.tag).Nodup)
    (hlen : vals.length = fields.length)
    (hiter : iter.Perm (tagMapOf packets))
    (h1 : UnmarshalFromPackets1 iter fields hu vals unk = .ok r1)
    (h2 : UnmarshalFromPackets2 packets fields hu vals unk = .ok r2) :
    r1.1 = r2.1 ∧ r1.2.Perm r2.2 := by
  obtain ⟨hv1, hp1⟩ := unmarshalFP1_leaf_spec engineFuel iter packets fields hu
    vals unk r1 hflat hleafP hnodup hlen hiter h1
  have hleaf2 : ∀ p ∈ packets, (p : TLV).children.isEmpty = true := by
    intro p hp
    have hh := hleafP p hp
    simp only [isLeafPacket, Bool.and_eq_true] at hh
    exact hh.1
  have e2 := unmarshalFP2_leaf_spec engineFuel packets fields hu vals unk r2
    hflat hleaf2 hlen h2
  rw [e2]
  exact ⟨hv1, hp1⟩

/-- C10 witness: on a single tag-50 packet and a one-field bytes schema the
tag map is a singleton (unique enumeration order) and both engines produce
the same assignment with empty unknowns. -/
theorem C10_flat_agreement_amended_witness :
    UnmarshalFromPackets1 [("50", TLV.mk "50" [65] [])] [("50", FieldKind.bytes)]
        true [none] [] = .ok ([some (FieldVal.bytes [65])], []) ∧
    UnmarshalFromPackets2 [TLV.mk "50" [65] []] [("50", FieldKind.bytes)]
        true [none] [] = .ok ([some (FieldVal.bytes [65])], []) ∧
    ((([some (FieldVal.bytes [65])], ([] : List TLV)).1 =
        ([some (FieldVal.bytes [65])], ([] : List TLV)).1) ∧
      (([some (FieldVal.bytes [65])], ([] : List TLV)).2).Perm
        ([some (FieldVal.bytes [65])], ([] : List TLV)).2) :=
  ⟨rfl, rfl,
   C10_flat_agreement_amended [TLV.mk "50" [65] []] [("50", FieldKind.bytes)]
     true [none] [] [("50", TLV.mk "50" [65] [])]
     ([some (FieldVal.bytes [65])], []) ([some (FieldVal.bytes [65])], [])
     (by decide) (by decide) (by decide) (by decide) (List.Perm.refl _)
     rfl rfl⟩

end SmartCard
